import Mathlib

/-
Verification of the core of the `lit` issue tracker (package lit, src/lit.go,
and the CLI front end src/cmd/lit/lit.go) against its specification.

The issue store is a shallow embedding of the Go code.  The external dgrl
document-tree library is modelled at its boundary as an inductive tree of
keyed branches and typed key/value leaves; Go strings are Lean strings
(byte-lexicographic order on UTF-8 bytes coincides with codepoint-
lexicographic order, which is what `lexLt` below implements).  Filesystem
state (per-issue attachment directories) is passed as an explicit function
from issue key to file listing.  The Go regexp engine is modelled for
patterns built from literal characters and '.', which is the fragment the
proofs below exercise; on that fragment the model agrees with RE2's
unanchored MatchString.
-/

/-! ### String primitives (Go `strings` package boundary) -/

/-- Strict byte-lexicographic order on character lists: the order Go uses
for `<` on strings (`sort.Strings`, `sort.SearchStrings`, `issueVal < val`). -/
def lexLt : List Char → List Char → Bool
  | [], [] => false
  | [], _ :: _ => true
  | _ :: _, [] => false
  | a :: as, b :: bs =>
    if a.toNat < b.toNat then true
    else if b.toNat < a.toNat then false
    else lexLt as bs

/-- Go `s < t` on strings. -/
def strLt (s t : String) : Bool := lexLt s.data t.data

/-- Go `s <= t` on strings, i.e. `!(t < s)`. -/
def strLe (s t : String) : Bool := !(strLt t s)

/-- Go `strings.HasPrefix t p` test, on character lists. -/
def isPref : List Char → List Char → Bool
  | [], _ => true
  | _ :: _, [] => false
  | a :: as, b :: bs => a == b && isPref as bs

/-- One pattern character matches one subject character ('.' matches any). -/
def charMatches (pc c : Char) : Bool := pc == '.' || pc == c

/-- The pattern matches some leading segment of the subject. -/
def patMatchesHere : List Char → List Char → Bool
  | [], _ => true
  | _ :: _, [] => false
  | pc :: ps, c :: cs => charMatches pc c && patMatchesHere ps cs

/-- Unanchored search: the pattern matches starting at some offset. -/
def reSearch : List Char → List Char → Bool
  | ps, [] => patMatchesHere ps []
  | ps, c :: cs => patMatchesHere ps (c :: cs) || reSearch ps cs

/-- Model of Go `regexp.MatchString pat s` (restricted to patterns of
literal characters and '.'; such patterns never yield a compile error, so
the `err == nil` guard in the Go code is always satisfied for them). -/
def matchString (pat s : String) : Bool := reSearch pat.data s.data

/-- Go regexp metacharacters (the special characters of RE2 syntax). -/
def isMeta (c : Char) : Bool :=
  c == '.' || c == '+' || c == '*' || c == '?' || c == '(' || c == ')' ||
  c == '|' || c == '[' || c == ']' || c == '{' || c == '}' || c == '^' ||
  c == '$' || c == '\\'

/-- The pattern fragment on which `matchString` is a faithful model of Go
`regexp.MatchString`: every character is either a non-metacharacter
(matched literally) or '.' (matches any character).  Such patterns always
compile, so Go's pattern-compile-error path never fires on them; outside
this fragment other metacharacters change the match semantics or make
compilation fail, and the model says nothing. -/
def goodPat (pat : String) : Bool := pat.data.all fun c => !isMeta c || c == '.'

/-- `sub` occurs as a contiguous substring: the behaviour the spec ascribes
to `Match` ("substring test"). -/
def substrOf (sub s : List Char) : Prop := ∃ t u, s = t ++ sub ++ u

/-- Accumulator loop of `strings.Fields`: split on runs of whitespace. -/
def fieldsAux : List Char → List Char → List (List Char)
  | [], acc => if acc = [] then [] else [acc.reverse]
  | c :: cs, acc =>
    if c.isWhitespace then
      if acc = [] then fieldsAux cs [] else acc.reverse :: fieldsAux cs []
    else fieldsAux cs (c :: acc)

/-- Go `strings.Fields`. -/
def fields (s : String) : List String := (fieldsAux s.data []).map List.asString

/-- Go `strings.Join tags " "`. -/
def joinSpace : List String → String
  | [] => ""
  | [s] => s
  | s :: rest => s ++ " " ++ joinSpace rest

/-- Go `strings.TrimSpace`: drop leading and trailing whitespace. -/
def trimSpace (s : String) : String :=
  ⟨(((s.data.dropWhile Char.isWhitespace).reverse.dropWhile Char.isWhitespace).reverse)⟩

/-! ### The dgrl document tree, at its boundary -/

/-- The three leaf flavours of the dgrl library: ordinary single-line
leaves (`dgrl.NewLeaf`, type `dgrl.LeafType`), multi-line long leaves
(`dgrl.NewLongLeaf`), and bare text nodes (`dgrl.NewText`, empty key). -/
inductive LType where
  | plain : LType
  | long : LType
  | text : LType
deriving DecidableEq

/-- A dgrl document-tree node: a keyed branch with ordered children, or a
typed key/value leaf. -/
inductive Node where
  | branch : String → List Node → Node
  | leaf : LType → String → String → Node

/-- Children of a node (`Branch.Kids`); a leaf has none. -/
def Node.kids : Node → List Node
  | .branch _ ks => ks
  | .leaf _ _ _ => []

/-- Key of a node (`Node.Key`). -/
def Node.key : Node → String
  | .branch k _ => k
  | .leaf _ k _ => k

/-- Whether a node is a branch (the `k.(*dgrl.Branch)` type assertion). -/
def Node.isBranch : Node → Bool
  | .branch _ _ => true
  | .leaf _ _ _ => false

/-- Model of dgrl's `Branch.Insert(node, idx)`: inserts at index `idx` and
reports success; an index beyond the child count is rejected. -/
def insertKid (kids : List Node) (n : Node) (idx : Nat) : Option (List Node) :=
  if idx ≤ kids.length then some (List.insertIdx idx n kids) else none

/-! ### src/lit.go: field accessor -/

/-- Loop body of `Get`: scan the children in order for the first leaf whose
key has the query as a prefix and return its value. -/
def getLoop : List Node → String → String × Bool
  | [], _ => ("", false)
  | .leaf _ k v :: rest, key =>
    if isPref key.data k.data then (v, true) else getLoop rest key
  | .branch _ _ :: rest, key => getLoop rest key

/-- `Get(issue, key)` of src/lit.go (a nil issue resolves to nothing). -/
def Get (issue : Option Node) (key : String) : String × Bool :=
  match issue with
  | none => ("", false)
  | some iss => getLoop iss.kids key

/-- Loop of `Set`: scan children with the running index `i`, remembering in
`idx` the index of the last plain (`dgrl.LeafType`) leaf seen; replace the
value of the first leaf whose key has the query as a prefix.  Returns the
updated child list, or the final `idx` when no leaf matched. -/
def setFind (key val : String) : List Node → Nat → Nat → List Node ⊕ Nat
  | [], _, idx => Sum.inr idx
  | .leaf t k v :: rest, i, idx =>
    if isPref key.data k.data then Sum.inl (.leaf t k val :: rest)
    else
      match setFind key val rest (i + 1) (if t = LType.plain then i else idx) with
      | Sum.inl rest' => Sum.inl (.leaf t k v :: rest')
      | Sum.inr j => Sum.inr j
  | .branch bk bks :: rest, i, idx =>
    match setFind key val rest (i + 1) idx with
    | Sum.inl rest' => Sum.inl (.branch bk bks :: rest')
    | Sum.inr j => Sum.inr j

/-- `Set(issue, key, val)` of src/lit.go: replace the first matching leaf's
value, else insert a fresh leaf right after the last plain leaf; returns the
Go success flag together with the (possibly) updated issue. -/
def SetField (issue : Option Node) (key val : String) : Bool × Option Node :=
  match issue with
  | none => (false, none)
  | some iss =>
    match setFind key val iss.kids 0 0 with
    | Sum.inl kids' => (true, some (.branch iss.key kids'))
    | Sum.inr idx =>
      match insertKid iss.kids (.leaf .plain key val) (idx + 1) with
      | some kids' => (true, some (.branch iss.key kids'))
      | none => (false, some iss)

/-- Position of the last plain (`dgrl.LeafType`) leaf among the children,
if any: the position after which `Set` inserts a fresh leaf.  Long leaves
and text nodes do not count, matching the `leaf.Type() == dgrl.LeafType`
guard in the `Set` loop. -/
def lastPlain : List Node → Option Nat
  | [] => none
  | n :: rest =>
    match lastPlain rest with
    | some j => some (j + 1)
    | none =>
      match n with
      | .leaf .plain _ _ => some 0
      | _ => none

/-! ### src/lit.go: the issue store and its index -/

/-- `IssueIds`: keys of the branch children, in tree order. -/
def IssueIds (issues : List Node) : List String :=
  issues.filterMap fun n => match n with
    | .branch k _ => some k
    | .leaf _ _ _ => none

/-- The identifier array built by `indexIssues` before sorting:
`make([]string, NumKids)` leaves the empty string at every position whose
child is not a branch. -/
def rawIds (issues : List Node) : List String :=
  issues.map fun n => match n with
    | .branch k _ => k
    | .leaf _ _ _ => ""

/-- Model of Go `sort.Strings`: since byte-lexicographic order is total and
antisymmetric, the sorted result is the unique ordered arrangement of the
multiset, here produced by an insertion sort. -/
def sortStrings (l : List String) : List String :=
  List.insertionSort (fun a b => strLe a b = true) l

/-- Position, in the child list, of the branch that `issueMap[key]` holds: a
Go map assignment loop keeps the last branch written for a key, so the
recursion prefers a match further down the list. -/
def mapPos : List Node → String → Option Nat
  | [], _ => none
  | n :: rest, key =>
    match mapPos rest key with
    | some p => some (p + 1)
    | none =>
      match n with
      | .branch k _ => if k == key then some 0 else none
      | .leaf _ _ _ => none

/-- `Issue(id)` of src/lit.go, resolved to a position: binary-search the
sorted identifier index for the first identifier `>= id`
(`sort.SearchStrings`), accept it when `id` is a prefix of it, and look the
winner up in the identifier map. -/
def issuePos (issues : List Node) (id : String) : Option Nat :=
  let ids := sortStrings (rawIds issues)
  let idx := ids.findIdx fun s => strLe id s
  match ids[idx]? with
  | some s => if isPref id.data s.data then mapPos issues s else none
  | none => none

/-- `Issue(id)`: the branch the identifier map holds for the resolved
identifier (the map stores pointers; we model a pointer into the child list
by its position). -/
def Issue (issues : List Node) (id : String) : Option Node :=
  (issuePos issues id).bind fun i => issues[i]?

/-! ### src/lit.go: predicate engine -/

/-- `commentContains`: does any comment sub-branch's key, or any of its
leaf children's values, match the pattern. -/
def commentContains (issue : Node) (val : String) : Bool :=
  issue.kids.any fun k =>
    match k with
    | .branch ck cks =>
      matchString val ck ||
        cks.any fun kk =>
          match kk with
          | .leaf _ _ v => matchString val v
          | .branch _ _ => false
    | .leaf _ _ _ => false

/-- `attachContains`: with an empty pattern, are there attachments at all;
otherwise does some attached filename match.  `fs` is the filesystem
listing of the issue's attachment directory (`Attachments`). -/
def attachContains (fs : String → List String) (issue : Node) (val : String) : Bool :=
  let att := fs issue.key
  if val == "" then att.length > 0
  else att.any fun file => matchString val file

/-- `contains` of src/lit.go: dispatch on the special field names, else
resolve the field and regexp-match, with the empty-query/empty-value case
pinned to false. -/
def containsFn (fs : String → List String) (issue : Node) (key val : String) : Bool :=
  if key == "comment" then commentContains issue val
  else if key == "attach" then attachContains fs issue val
  else
    if (getLoop issue.kids key).2 then
      if val == "" && (getLoop issue.kids key).1 == "" then false
      else matchString val (getLoop issue.kids key).1
    else false

/-- The shared selection loop of `Match` and `Compare`: walk the children
in tree order and collect the key of every branch satisfying the test. -/
def selectKeys (issues : List Node) (P : Node → Bool) : List String :=
  issues.filterMap fun n =>
    match n with
    | .branch _ _ => if P n then some n.key else none
    | .leaf _ _ _ => none

/-- `Match(key, val, doesMatch)`: keys of the branch children whose
containment test equals `doesMatch`, in tree order. -/
def Match (issues : List Node) (fs : String → List String)
    (key val : String) (doesMatch : Bool) : List String :=
  selectKeys issues fun n => containsFn fs n key val == doesMatch

/-! ### src/lit.go: comparison engine -/

/-- `commentCompare`: compare the first comment sub-branch's key (a stamp)
against the query; with no comment, return `!isLess`. -/
def commentCompare (issue : Node) (time : String) (isLess : Bool) : Bool :=
  match issue.kids.find? Node.isBranch with
  | some c => if isLess then strLt c.key time else strLe c.key time
  | none => !isLess

/-- `attachCompare`: parse the query as an integer (`strconv.Atoi`) and
compare the attachment count; a non-numeric query yields `!isLess`. -/
def attachCompare (fs : String → List String) (issue : Node) (val : String) (isLess : Bool) : Bool :=
  match val.toInt? with
  | none => !isLess
  | some num =>
    let numAtt : Int := (fs issue.key).length
    if isLess then decide (numAtt < num) else decide (numAtt ≤ num)

/-- `compare` of src/lit.go: dispatch on the special field names; an
unresolved or empty field value yields `!isLess`; otherwise a string
comparison, strict for `isLess` and non-strict otherwise. -/
def compareFn (fs : String → List String) (issue : Node) (key val : String) (isLess : Bool) : Bool :=
  if key == "comment" then commentCompare issue val isLess
  else if key == "attach" then attachCompare fs issue val isLess
  else
    if !(getLoop issue.kids key).2 || (getLoop issue.kids key).1 == "" then !isLess
    else if isLess then strLt (getLoop issue.kids key).1 val
    else strLe (getLoop issue.kids key).1 val

/-- `Compare(key, val, isLess)`: empty query value selects nothing;
otherwise the keys of the branch children for which `compare` returns
`isLess`, in tree order. -/
def Compare (issues : List Node) (fs : String → List String)
    (key val : String) (isLess : Bool) : List String :=
  if val == "" then []
  else selectKeys issues fun n => compareFn fs n key val isLess == isLess

/-! ### src/lit.go: sort engine -/

/-- Value resolution of `Sort`: the sorter's `vals[i]` stays the empty
string when the identifier or the field does not resolve. -/
def resolveVal (issues : List Node) (key id : String) : String :=
  match Issue issues id with
  | some issue =>
    if (getLoop issue.kids key).2 then (getLoop issue.kids key).1 else ""
  | none => ""

/-- Comparator of the in-place sorter, lifted to (id, value) pairs:
`sort.Stable` with `Less i j = vals[i] < vals[j]`, and
`sort.Stable(sort.Reverse(...))` with the arguments of `Less` swapped.  A
stable sort is uniquely determined by its comparator, so a stable sort with
`le a b := !Less b a` is the model. -/
def sortLe (doAscend : Bool) (a b : String × String) : Bool :=
  if doAscend then !(strLt b.2 a.2) else !(strLt a.2 b.2)

/-- `Sort(ids, key, doAscend)` of src/lit.go (`Sort` names a Lean universe,
hence `sortIds`): resolve each identifier's value, stable-sort the pairs by
value, ascending or descending. -/
def sortIds (issues : List Node) (ids : List String) (key : String) (doAscend : Bool) : List String :=
  (List.insertionSort (fun a b => sortLe doAscend a b = true)
    (ids.map fun id => (id, resolveVal issues key id))).map Prod.fst

/-! ### src/lit.go: tag set codec -/

/-- `tagStrToSet`: split the tags field on whitespace and collect the set;
a Go `map[string]struct{}` is modelled as its insertion-ordered support
list (the serializer below sorts, so representation order never shows). -/
def tagStrToSet (tagStr : String) : List String :=
  (fields tagStr).foldl (fun s t => if t ∈ s then s else s ++ [t]) []

/-- `setToTagStr`: `make([]string, len(set))` followed by `append` leaves
`len(set)` empty strings in front of the elements; the slice is then
sorted, space-joined, and trimmed. -/
def setToTagStr (set : List String) : String :=
  trimSpace (joinSpace (sortStrings (List.replicate set.length "" ++ set)))

/-- Insertion into the tag set (`tagSet[tag] = struct{}{}`). -/
def tagInsert (set : List String) (tag : String) : List String :=
  if tag ∈ set then set else set ++ [tag]

/-- Deletion from the tag set (`delete(tagSet, tag)`). -/
def tagErase (set : List String) (tag : String) : List String :=
  set.filter fun t => t ≠ tag

/-- `ModifyTag(issue, tag, doAdd)` of src/lit.go: read the tags field
(addressed by the prefix "tag"), add or remove the tag in the parsed set,
and write the re-serialized set back. -/
def ModifyTag (issue : Option Node) (tag : String) (doAdd : Bool) : Bool × Option Node :=
  let tags := (Get issue "tag").1
  let tagSet := tagStrToSet tags
  let tagSet' := if doAdd then tagInsert tagSet tag else tagErase tagSet tag
  SetField issue "tag" (setToTagStr tagSet')

/-! ### src/cmd/lit/lit.go: the edit command -/

/-- The Collect step of `editCmd`: append each resolved issue, in selection
order, to the scratch document written to the temp file (identifiers that
no longer resolve are reported and skipped). -/
def collectScratch (issues : List Node) (ids : List String) : List Node :=
  ids.filterMap fun id => Issue issues id

/-- Inner merge loop of `editCmd` for one selected identifier: scan the
reparsed document's children for branches whose key has the identifier as a
prefix; each match overwrites the issue in place (`*issue = *ed`), and the
scan stops at the first match whose `updated` re-stamp succeeds (a failed
re-stamp logs and continues the scan). -/
def mergeScan (eds : List Node) (id stamp : String) (issue : Node) : Node × Bool :=
  match eds with
  | [] => (issue, false)
  | .branch k ks :: rest =>
    if isPref id.data k.data then
      match SetField (some (.branch k ks)) "updated" stamp with
      | (true, some r) => (r, true)
      | _ => mergeScan rest id stamp (.branch k ks)
    else mergeScan rest id stamp issue
  | .leaf _ _ _ :: rest => mergeScan rest id stamp issue

/-- Merge step of `editCmd`: for each originally selected identifier,
resolve it through the (unchanged) index to a position in the store and run
the merge scan there; `didUpdate` records whether any identifier was
merged. -/
def mergeAll (issues : List Node) (ids : List String) (eds : List Node) (stamp : String) :
    List Node × Bool :=
  ids.foldl
    (fun acc id =>
      match issuePos issues id with
      | none => acc
      | some p =>
        match acc.1[p]? with
        | none => acc
        | some cur =>
          let r := mergeScan eds id stamp cur
          (acc.1.set p r.1, acc.2 || r.2))
    (issues, false)

/-- Outcome of one `editCmd` invocation.  Every outcome other than
`updated` is a `log.Fatalln` in the Go code, so `Store()` runs only in the
`updated` case. -/
inductive EditResult where
  | noChange : EditResult
  | parseFail : EditResult
  | noUpdate : EditResult
  | updated : List Node → EditResult

/-- `editCmd` of src/cmd/lit/lit.go after the editor has run, as a state
machine over the store: `modChanged` is whether the scratch file's
modification time moved, `parsed` the reparse of the scratch buffer (`none`
for a parse failure), `stamp` the `lit.Stamp(username)` taken before the
merge loop. -/
def editCmd (issues : List Node) (ids : List String) (modChanged : Bool)
    (parsed : Option (List Node)) (stamp : String) : EditResult :=
  if !modChanged then .noChange
  else
    match parsed with
    | none => .parseFail
    | some eds =>
      let r := mergeAll issues ids eds stamp
      if r.2 then .updated r.1 else .noUpdate

/-! ### Lemmas: the lexicographic string order -/

theorem char_toNat_inj {a b : Char} (h : a.toNat = b.toNat) : a = b :=
  Char.eq_of_val_eq (UInt32.ext h)

theorem lexLt_cons_iff {a b : Char} {as bs : List Char} :
    lexLt (a :: as) (b :: bs) = true ↔
      a.toNat < b.toNat ∨ (a.toNat = b.toNat ∧ lexLt as bs = true) := by
  simp only [lexLt]
  split_ifs with h1 h2
  · simpa using Or.inl h1
  · simp only [Bool.false_eq_true, false_iff]
    rintro (h | ⟨h, _⟩) <;> omega
  · constructor
    · intro h
      exact Or.inr ⟨by omega, h⟩
    · rintro (h | ⟨_, h⟩)
      · omega
      · exact h

theorem lexLt_irrefl : ∀ l : List Char, lexLt l l = false
  | [] => rfl
  | a :: as => by
    have ih := lexLt_irrefl as
    simp only [lexLt]
    rw [if_neg (by omega), if_neg (by omega)]
    exact ih

theorem lexLt_trans : ∀ {a b c : List Char},
    lexLt a b = true → lexLt b c = true → lexLt a c = true
  | [], [], _, h1, _ => by simp [lexLt] at h1
  | [], _ :: _, [], _, h2 => by simp [lexLt] at h2
  | [], _ :: _, _ :: _, _, _ => by simp [lexLt]
  | _ :: _, [], _, h1, _ => by simp [lexLt] at h1
  | _ :: _, _ :: _, [], _, h2 => by simp [lexLt] at h2
  | a :: as, b :: bs, c :: cs, h1, h2 => by
    rw [lexLt_cons_iff] at h1 h2 ⊢
    rcases h1 with h1 | ⟨e1, t1⟩
    · rcases h2 with h2 | ⟨e2, t2⟩
      · exact Or.inl (by omega)
      · exact Or.inl (by omega)
    · rcases h2 with h2 | ⟨e2, t2⟩
      · exact Or.inl (by omega)
      · exact Or.inr ⟨by omega, lexLt_trans t1 t2⟩

theorem lexLt_conn : ∀ {a b : List Char},
    lexLt a b = false → lexLt b a = false → a = b
  | [], [], _, _ => rfl
  | [], _ :: _, h1, _ => by simp [lexLt] at h1
  | _ :: _, [], _, h2 => by simp [lexLt] at h2
  | a :: as, b :: bs, h1, h2 => by
    rw [← Bool.not_eq_true, lexLt_cons_iff] at h1 h2
    push_neg at h1 h2
    obtain ⟨n1, h1r⟩ := h1
    obtain ⟨n2, h2r⟩ := h2
    have hab : a = b := char_toNat_inj (by omega)
    have t1 : lexLt as bs = false := by simpa using h1r (by omega)
    have t2 : lexLt bs as = false := by simpa using h2r (by omega)
    rw [hab, lexLt_conn t1 t2]

theorem lexLt_asymm {a b : List Char} (h : lexLt a b = true) : lexLt b a = false := by
  by_contra hc
  rw [Bool.not_eq_false] at hc
  have := lexLt_trans h hc
  rw [lexLt_irrefl] at this
  exact Bool.false_ne_true this

theorem strLe_trans (a b c : String) : strLe a b = true → strLe b c = true → strLe a c = true := by
  simp only [strLe, strLt, Bool.not_eq_true']
  intro h1 h2
  by_contra hc
  rw [Bool.not_eq_false] at hc
  cases hab : lexLt a.data b.data with
  | false =>
    have hab' : a.data = b.data := lexLt_conn hab h1
    rw [hab'] at hc
    rw [hc] at h2
    exact absurd h2 (by simp)
  | true =>
    have := lexLt_trans hc hab
    rw [this] at h2
    exact absurd h2 (by simp)

theorem strLe_total (a b : String) : strLe a b || strLe b a := by
  simp only [strLe, strLt]
  rcases h : lexLt b.data a.data with _ | _ <;> simp
  exact lexLt_asymm h

theorem strLe_antisymm {a b : String} (h1 : strLe a b = true) (h2 : strLe b a = true) : a = b := by
  simp only [strLe, strLt, Bool.not_eq_true'] at h1 h2
  exact String.ext (lexLt_conn h2 h1)

/-! ### Lemmas: prefixes and the order -/

theorem isPref_not_lt : ∀ {p s : List Char}, isPref p s = true → lexLt s p = false
  | [], s, _ => by cases s <;> simp [lexLt]
  | a :: as, [], h => by simp [isPref] at h
  | a :: as, b :: bs, h => by
    simp only [isPref, Bool.and_eq_true, beq_iff_eq] at h
    obtain ⟨rfl, h2⟩ := h
    rw [← Bool.not_eq_true, lexLt_cons_iff]
    push_neg
    refine ⟨by omega, fun _ => ?_⟩
    simpa using isPref_not_lt h2

theorem isPref_sandwich : ∀ {p s t : List Char},
    lexLt s p = false → lexLt t s = false → isPref p t = true → isPref p s = true
  | [], _, _, _, _, _ => rfl
  | a :: as, [], t, h1, _, _ => by simp [lexLt] at h1
  | a :: as, b :: bs, [], _, _, h3 => by simp [isPref] at h3
  | a :: as, b :: bs, c :: cs, h1, h2, h3 => by
    simp only [isPref, Bool.and_eq_true, beq_iff_eq] at h3 ⊢
    obtain ⟨rfl, h3'⟩ := h3
    rw [← Bool.not_eq_true, lexLt_cons_iff] at h1 h2
    push_neg at h1 h2
    have hba : b = a := by
      rcases h1 with ⟨n1, _⟩
      rcases h2 with ⟨n2, _⟩
      exact char_toNat_inj (by omega)
    subst hba
    refine ⟨rfl, isPref_sandwich ?_ ?_ h3'⟩
    · rcases h1 with ⟨_, h⟩
      simpa using h rfl
    · rcases h2 with ⟨_, h⟩
      simpa using h rfl

/-! ### Lemmas: selection over the issue list -/

theorem mem_selectKeys {issues : List Node} {P : Node → Bool} {id : String} :
    id ∈ selectKeys issues P ↔
      ∃ n ∈ issues, n.isBranch = true ∧ n.key = id ∧ P n = true := by
  rw [selectKeys, List.mem_filterMap]
  constructor
  · rintro ⟨x, hx, hfx⟩
    cases x with
    | branch k ks =>
      by_cases h : P (.branch k ks)
      · rw [if_pos h] at hfx
        exact ⟨_, hx, rfl, Option.some_injective _ hfx, h⟩
      · rw [if_neg h] at hfx
        cases hfx
    | leaf t k v => cases hfx
  · rintro ⟨n, hn, hb, hk, hP⟩
    cases n with
    | branch k ks => exact ⟨_, hn, by rw [if_pos hP, hk]⟩
    | leaf t k v => cases hb

theorem selectKeys_sublist (issues : List Node) (P : Node → Bool) :
    List.Sublist (selectKeys issues P) (IssueIds issues) := by
  induction issues with
  | nil => exact List.Sublist.refl _
  | cons n rest ih =>
    cases n with
    | branch k ks =>
      by_cases h : P (.branch k ks)
      · simpa [selectKeys, IssueIds, List.filterMap_cons, h, Node.key] using ih.cons₂ k
      · simpa [selectKeys, IssueIds, List.filterMap_cons, h] using ih.cons k
    | leaf t k v => simpa [selectKeys, IssueIds, List.filterMap_cons] using ih

theorem mem_IssueIds {issues : List Node} {id : String} :
    id ∈ IssueIds issues ↔ ∃ n ∈ issues, n.isBranch = true ∧ n.key = id := by
  rw [IssueIds, List.mem_filterMap]
  constructor
  · rintro ⟨x, hx, hfx⟩
    cases x with
    | branch k ks => exact ⟨_, hx, rfl, Option.some_injective _ hfx⟩
    | leaf t k v => cases hfx
  · rintro ⟨n, hn, hb, hk⟩
    cases n with
    | branch k ks => exact ⟨_, hn, congrArg some hk⟩
    | leaf t k v => cases hb

/-- Distinct identifiers pin down the branch: under a duplicate-free
identifier list, two branch children with the same key are the same node. -/
theorem branch_key_inj {issues : List Node} (hnd : (IssueIds issues).Nodup) :
    ∀ {n1 n2 : Node}, n1 ∈ issues → n2 ∈ issues →
      n1.isBranch = true → n2.isBranch = true → n1.key = n2.key → n1 = n2 := by
  induction issues with
  | nil => intro n1 n2 h; cases h
  | cons x rest ih =>
    intro n1 n2 h1 h2 hb1 hb2 hkey
    have hnd' : (IssueIds rest).Nodup := by
      cases x with
      | branch k ks =>
        simp only [IssueIds, List.filterMap_cons] at hnd
        exact (List.nodup_cons.mp hnd).2
      | leaf t k v =>
        simpa only [IssueIds, List.filterMap_cons] using hnd
    have hx : ∀ {m : Node}, m ∈ rest → m.isBranch = true → x.isBranch = true →
        m.key ≠ x.key := by
      intro m hm hmb hxb
      cases x with
      | branch k ks =>
        simp only [IssueIds, List.filterMap_cons] at hnd
        have := (List.nodup_cons.mp hnd).1
        intro he
        exact this (mem_IssueIds.mpr ⟨m, hm, hmb, by simpa [Node.key] using he⟩)
      | leaf t k v => cases hxb
    rcases List.mem_cons.mp h1 with rfl | h1' <;> rcases List.mem_cons.mp h2 with rfl | h2'
    · rfl
    · exact absurd hkey.symm (hx h2' hb2 hb1)
    · exact absurd hkey (hx h1' hb1 hb2)
    · exact ih hnd' h1' h2' hb1 hb2 hkey

/-! ### C1 and C10: Compare at unset and at equal values -/

/-- C1 counterexample: a store with a single issue `i1` whose `priority`
field is present but empty.  Against the non-empty query value "1", the
issue is excluded from the "greater" result (`wantLess = false`), where the
claim demands its inclusion. -/
theorem C1_cex_unset_not_in_greater :
    IssueIds [Node.branch "i1" [Node.leaf .plain "priority" ""]] = ["i1"] ∧
    getLoop (Node.branch "i1" [Node.leaf .plain "priority" ""]).kids "priority" = ("", true) ∧
    ("1" : String) ≠ "" ∧
    Compare [Node.branch "i1" [Node.leaf .plain "priority" ""]] (fun _ => [])
      "priority" "1" false = [] := by
  refine ⟨rfl, rfl, by decide, rfl⟩

/-- C1 (amended): an issue whose resolved value for an ordinary field is
unset or empty is excluded from the result of `Compare` in *both*
directions: `compare` answers `!isLess` for it, and `Compare` keeps an
issue only when `compare` answers `isLess`. -/
theorem C1_unset_excluded_both_directions
    (issues : List Node) (fs : String → List String) (key val : String) (n : Node)
    (hnd : (IssueIds issues).Nodup) (hn : n ∈ issues) (hb : n.isBranch = true)
    (hkc : key ≠ "comment") (hka : key ≠ "attach")
    (hunset : (getLoop n.kids key).2 = false ∨ (getLoop n.kids key).1 = "") :
    n.key ∉ Compare issues fs key val true ∧ n.key ∉ Compare issues fs key val false := by
  have hcmp : ∀ isLess : Bool, compareFn fs n key val isLess = !isLess := by
    intro isLess
    rw [compareFn, if_neg (by simpa using hkc), if_neg (by simpa using hka)]
    have : (!(getLoop n.kids key).2 || (getLoop n.kids key).1 == "") = true := by
      rcases hunset with h | h
      · rw [h]; simp
      · rw [h]; simp
    simp only [this, if_pos]
  constructor <;>
  · intro hmem
    rw [Compare] at hmem
    split_ifs at hmem with hv
    · cases hmem
    · obtain ⟨m, hm, hmb, hmk, hP⟩ := mem_selectKeys.mp hmem
      have : m = n := branch_key_inj hnd hm hn hmb hb hmk
      subst this
      rw [beq_iff_eq, hcmp] at hP
      simp at hP

/-- C1 witness. -/
theorem C1_unset_excluded_witness :
    (Node.branch "i1" [Node.leaf .plain "priority" ""]).key ∉
      Compare [Node.branch "i1" [Node.leaf .plain "priority" ""]] (fun _ => [])
        "priority" "1" true ∧
    (Node.branch "i1" [Node.leaf .plain "priority" ""]).key ∉
      Compare [Node.branch "i1" [Node.leaf .plain "priority" ""]] (fun _ => [])
        "priority" "1" false :=
  C1_unset_excluded_both_directions
    [Node.branch "i1" [Node.leaf .plain "priority" ""]] (fun _ => []) "priority" "1"
    (Node.branch "i1" [Node.leaf .plain "priority" ""])
    (by decide) (List.mem_singleton.mpr rfl) rfl (by decide) (by decide)
    (Or.inr rfl)

/-- C10 (confirmed): both directions of `Compare` are strict at equality:
an issue whose resolved ordinary-field value is non-empty and equal to the
query value appears in neither the "less" nor the "greater" result. -/
theorem C10_compare_strict_at_equality
    (issues : List Node) (fs : String → List String) (key val : String) (n : Node)
    (hnd : (IssueIds issues).Nodup) (hn : n ∈ issues) (hb : n.isBranch = true)
    (hkc : key ≠ "comment") (hka : key ≠ "attach")
    (hval : getLoop n.kids key = (val, true)) (hne : val ≠ "") :
    n.key ∉ Compare issues fs key val true ∧ n.key ∉ Compare issues fs key val false := by
  have hcmp : ∀ isLess : Bool, compareFn fs n key val isLess = !isLess := by
    intro isLess
    rw [compareFn, if_neg (by simpa using hkc), if_neg (by simpa using hka), hval]
    simp only
    rw [if_neg (by simpa using hne)]
    cases isLess with
    | true => simp [strLt, lexLt_irrefl]
    | false => simp [strLe, strLt, lexLt_irrefl]
  constructor <;>
  · intro hmem
    rw [Compare] at hmem
    split_ifs at hmem with hv
    · cases hmem
    · obtain ⟨m, hm, hmb, hmk, hP⟩ := mem_selectKeys.mp hmem
      have : m = n := branch_key_inj hnd hm hn hmb hb hmk
      subst this
      rw [beq_iff_eq, hcmp] at hP
      simp at hP

/-- C10 witness. -/
theorem C10_compare_strict_witness :
    (Node.branch "i1" [Node.leaf .plain "priority" "2"]).key ∉
      Compare [Node.branch "i1" [Node.leaf .plain "priority" "2"]] (fun _ => [])
        "priority" "2" true ∧
    (Node.branch "i1" [Node.leaf .plain "priority" "2"]).key ∉
      Compare [Node.branch "i1" [Node.leaf .plain "priority" "2"]] (fun _ => [])
        "priority" "2" false :=
  C10_compare_strict_at_equality
    [Node.branch "i1" [Node.leaf .plain "priority" "2"]] (fun _ => []) "priority" "2"
    (Node.branch "i1" [Node.leaf .plain "priority" "2"])
    (by decide) (List.mem_singleton.mpr rfl) rfl (by decide) (by decide)
    rfl (by decide)

/-! ### C4: Match partitions the issue set -/

/-- C4 (confirmed): for every field and value, `Match` with `true` and with
`false` partition the issue identifiers exactly — no identifier in both
results, every identifier in one of them — and both results are sublists of
the tree-order enumeration `IssueIds`. -/
theorem C4_match_partition (issues : List Node) (fs : String → List String)
    (key val : String) (hnd : (IssueIds issues).Nodup) :
    (∀ id, id ∈ Match issues fs key val true → id ∉ Match issues fs key val false) ∧
    (∀ id, id ∈ IssueIds issues →
      id ∈ Match issues fs key val true ∨ id ∈ Match issues fs key val false) ∧
    List.Sublist (Match issues fs key val true) (IssueIds issues) ∧
    List.Sublist (Match issues fs key val false) (IssueIds issues) := by
  refine ⟨?_, ?_, selectKeys_sublist _ _, selectKeys_sublist _ _⟩
  · intro id h1 h2
    rw [Match] at h1 h2
    obtain ⟨n1, hn1, hb1, hk1, hP1⟩ := mem_selectKeys.mp h1
    obtain ⟨n2, hn2, hb2, hk2, hP2⟩ := mem_selectKeys.mp h2
    have : n1 = n2 := branch_key_inj hnd hn1 hn2 hb1 hb2 (hk1.trans hk2.symm)
    subst this
    rw [beq_iff_eq] at hP1 hP2
    rw [hP1] at hP2
    cases hP2
  · intro id hid
    obtain ⟨n, hn, hb, hk⟩ := mem_IssueIds.mp hid
    cases hc : containsFn fs n key val with
    | true => exact Or.inl (mem_selectKeys.mpr ⟨n, hn, hb, hk, by simp [hc]⟩)
    | false => exact Or.inr (mem_selectKeys.mpr ⟨n, hn, hb, hk, by simp [hc]⟩)

/-- C4 witness. -/
theorem C4_match_partition_witness :
    (∀ id, id ∈ Match [Node.branch "i1" [Node.leaf .plain "summary" "x"]] (fun _ => [])
        "summary" "x" true →
      id ∉ Match [Node.branch "i1" [Node.leaf .plain "summary" "x"]] (fun _ => [])
        "summary" "x" false) ∧
    (∀ id, id ∈ IssueIds [Node.branch "i1" [Node.leaf .plain "summary" "x"]] →
      id ∈ Match [Node.branch "i1" [Node.leaf .plain "summary" "x"]] (fun _ => [])
          "summary" "x" true ∨
      id ∈ Match [Node.branch "i1" [Node.leaf .plain "summary" "x"]] (fun _ => [])
          "summary" "x" false) ∧
    List.Sublist
      (Match [Node.branch "i1" [Node.leaf .plain "summary" "x"]] (fun _ => [])
        "summary" "x" true)
      (IssueIds [Node.branch "i1" [Node.leaf .plain "summary" "x"]]) ∧
    List.Sublist
      (Match [Node.branch "i1" [Node.leaf .plain "summary" "x"]] (fun _ => [])
        "summary" "x" false)
      (IssueIds [Node.branch "i1" [Node.leaf .plain "summary" "x"]]) :=
  C4_match_partition [Node.branch "i1" [Node.leaf .plain "summary" "x"]] (fun _ => [])
    "summary" "x" (by decide)

/-! ### C3: the containment test is a regexp match, not a substring test -/

theorem patMatchesHere_literal : ∀ {p s : List Char}, (∀ c ∈ p, c ≠ '.') →
    (patMatchesHere p s = true ↔ ∃ u, s = p ++ u)
  | [], s, _ => by simp [patMatchesHere]
  | c :: ps, [], _ => by simp [patMatchesHere]
  | c :: ps, a :: as, h => by
    have hc : c ≠ '.' := h c (List.mem_cons_self c ps)
    have ih := @patMatchesHere_literal ps as
      (fun x hx => h x (List.mem_cons_of_mem c hx))
    simp only [patMatchesHere, charMatches, Bool.and_eq_true, Bool.or_eq_true, beq_iff_eq]
    constructor
    · rintro ⟨hca, hrest⟩
      rcases hca with hca | hca
      · exact absurd hca hc
      · obtain ⟨u, hu⟩ := ih.mp hrest
        exact ⟨u, by rw [hca, hu]; rfl⟩
    · rintro ⟨u, hu⟩
      rw [List.cons_append] at hu
      injection hu with h1 h2
      exact ⟨Or.inr h1.symm, ih.mpr ⟨u, h2⟩⟩

theorem reSearch_substr : ∀ {p s : List Char}, (∀ c ∈ p, c ≠ '.') →
    (reSearch p s = true ↔ substrOf p s)
  | p, [], h => by
    rw [reSearch, patMatchesHere_literal h]
    constructor
    · rintro ⟨u, hu⟩
      exact ⟨[], u, by simpa using hu⟩
    · rintro ⟨t, u, htu⟩
      have : t = [] ∧ p ++ u = [] := by
        have := htu.symm
        rw [List.append_assoc] at this
        exact List.append_eq_nil.mp this
      exact ⟨u, this.2.symm⟩
  | p, a :: as, h => by
    rw [reSearch, Bool.or_eq_true, patMatchesHere_literal h]
    have ih := @reSearch_substr p as h
    constructor
    · rintro (⟨u, hu⟩ | hs)
      · exact ⟨[], u, by simpa using hu⟩
      · obtain ⟨t, u, htu⟩ := ih.mp hs
        exact ⟨a :: t, u, by rw [htu]; rfl⟩
    · rintro ⟨t, u, htu⟩
      cases t with
      | nil => exact Or.inl ⟨u, by simpa using htu⟩
      | cons x t' =>
        rw [List.cons_append, List.cons_append] at htu
        injection htu with h1 h2
        exact Or.inr (ih.mpr ⟨t', u, h2⟩)

/-- C3 counterexample: the store holds one issue whose `summary` value is
"abc".  The query value "a.c" selects it — `contains` feeds the query to
the regexp engine, where '.' matches any character — although "a.c" is not
a substring of "abc", so the test is not substring containment. -/
theorem C3_cex_regexp_not_substring :
    Match [Node.branch "i1" [Node.leaf .plain "summary" "abc"]] (fun _ => [])
      "summary" "a.c" true = ["i1"] ∧
    ¬ substrOf "a.c".data "abc".data := by
  refine ⟨rfl, ?_⟩
  rintro ⟨t, u, h⟩
  have hl := congrArg List.length h
  simp only [List.length_append] at hl
  have h3 : ("abc".data).length = 3 := by decide
  have h3' : ("a.c".data).length = 3 := by decide
  rw [h3, h3'] at hl
  have ht : t = [] := List.eq_nil_of_length_eq_zero (by omega)
  have hu : u = [] := List.eq_nil_of_length_eq_zero (by omega)
  subst ht
  subst hu
  simp only [List.nil_append, List.append_nil] at h
  exact absurd (String.ext h) (by decide)

/-- C3 (amended): for an ordinary field name and a query value inside the
pattern fragment of literal characters and '.' — on which `matchString`
models Go `regexp.MatchString` — `contains` resolves the leaf and runs an
unanchored regular-expression match of the query value (as pattern)
against it, which coincides with substring containment when the query has
no regexp metacharacter at all; and an empty query against an empty stored
value is pinned to non-matching. -/
theorem C3_contains_regexp_match (fs : String → List String) (issue : Node)
    (key val : String) (hkc : key ≠ "comment") (hka : key ≠ "attach")
    (hgp : goodPat val = true) :
    (((getLoop issue.kids key).2 = true ∧ val = "" ∧ (getLoop issue.kids key).1 = "") →
      containsFn fs issue key val = false) ∧
    ((∀ c ∈ val.data, isMeta c = false) →
      (containsFn fs issue key val = true ↔
        (getLoop issue.kids key).2 = true ∧
        ¬(val = "" ∧ (getLoop issue.kids key).1 = "") ∧
        substrOf val.data ((getLoop issue.kids key).1).data)) := by
  clear hgp
  rw [containsFn, if_neg (by simpa using hkc), if_neg (by simpa using hka)]
  constructor
  · rintro ⟨hok, hv, hsv⟩
    simp only [hok, if_pos]
    rw [if_pos (by rw [hv, hsv]; rfl)]
  · intro hnm
    have hlit : ∀ c ∈ val.data, c ≠ '.' := by
      intro c hc heq
      have h1 := hnm c hc
      rw [heq] at h1
      exact absurd h1 (by decide)
    constructor
    · intro h
      cases hok : (getLoop issue.kids key).2 with
      | false => rw [hok] at h; simp at h
      | true =>
        rw [hok, if_pos rfl] at h
        split_ifs at h with hemp
        refine ⟨rfl, ?_, (reSearch_substr hlit).mp h⟩
        intro ⟨hv, hsv⟩
        exact hemp (by rw [hv, hsv]; rfl)
    · rintro ⟨hok, hemp, hsub⟩
      rw [hok, if_pos rfl, if_neg ?_]
      · exact (reSearch_substr hlit).mpr hsub
      · intro hb
        rw [Bool.and_eq_true, beq_iff_eq, beq_iff_eq] at hb
        exact hemp hb

/-- C3 witness. -/
theorem C3_contains_witness :
    ((((getLoop (Node.branch "i1" [Node.leaf .plain "summary" "abc"]).kids "summary").2 = true ∧
        ("bc" : String) = "" ∧
        (getLoop (Node.branch "i1" [Node.leaf .plain "summary" "abc"]).kids "summary").1 = "") →
      containsFn (fun _ => []) (Node.branch "i1" [Node.leaf .plain "summary" "abc"])
        "summary" "bc" = false) ∧
    ((∀ c ∈ ("bc" : String).data, isMeta c = false) →
      (containsFn (fun _ => []) (Node.branch "i1" [Node.leaf .plain "summary" "abc"])
          "summary" "bc" = true ↔
        (getLoop (Node.branch "i1" [Node.leaf .plain "summary" "abc"]).kids "summary").2 = true ∧
        ¬(("bc" : String) = "" ∧
          (getLoop (Node.branch "i1" [Node.leaf .plain "summary" "abc"]).kids "summary").1 = "") ∧
        substrOf ("bc" : String).data
          ((getLoop (Node.branch "i1" [Node.leaf .plain "summary" "abc"]).kids "summary").1).data))) ∧
    substrOf ("bc" : String).data ("abc" : String).data :=
  ⟨C3_contains_regexp_match (fun _ => []) (Node.branch "i1" [Node.leaf .plain "summary" "abc"])
      "summary" "bc" (by decide) (by decide) (by decide),
   ⟨['a'], [], by decide⟩⟩

/-! ### Lemmas: the Set/Get loops over an issue's children -/

theorem isPref_refl : ∀ l : List Char, isPref l l = true
  | [] => rfl
  | a :: as => by simp [isPref, isPref_refl as]

theorem getLoop_false_iff {key : String} : ∀ {kids : List Node},
    (getLoop kids key).2 = false ↔
      ∀ t k v, Node.leaf t k v ∈ kids → isPref key.data k.data = false := by
  intro kids
  induction kids with
  | nil => simp [getLoop]
  | cons n rest ih =>
    cases n with
    | leaf t k v =>
      by_cases hp : isPref key.data k.data
      · simp only [getLoop, if_pos hp]
        constructor
        · intro h; cases h
        · intro h
          have := h t k v (List.mem_cons_self _ _)
          rw [hp] at this
          cases this
      · simp only [getLoop, if_neg hp, ih]
        constructor
        · intro h t' k' v' hm
          rcases List.mem_cons.mp hm with he | hm'
          · injection he with h1 h2 h3
            subst h2
            exact Bool.not_eq_true _ ▸ (by simpa using hp)
          · exact h t' k' v' hm'
        · intro h t' k' v' hm
          exact h t' k' v' (List.mem_cons_of_mem _ hm)
    | branch bk bks =>
      simp only [getLoop, ih]
      constructor
      · intro h t' k' v' hm
        rcases List.mem_cons.mp hm with he | hm'
        · cases he
        · exact h t' k' v' hm'
      · intro h t' k' v' hm
        exact h t' k' v' (List.mem_cons_of_mem _ hm)

theorem getLoop_append_no_match {key : String} : ∀ {l1 l2 : List Node},
    (∀ t k v, Node.leaf t k v ∈ l1 → isPref key.data k.data = false) →
    getLoop (l1 ++ l2) key = getLoop l2 key := by
  intro l1
  induction l1 with
  | nil => intro l2 _; rfl
  | cons n rest ih =>
    intro l2 h
    cases n with
    | leaf t k v =>
      have hp : isPref key.data k.data = false := h t k v (List.mem_cons_self _ _)
      simp only [List.cons_append, getLoop, hp, Bool.false_eq_true, if_false]
      exact ih fun t' k' v' hm => h t' k' v' (List.mem_cons_of_mem _ hm)
    | branch bk bks =>
      simp only [List.cons_append, getLoop]
      exact ih fun t' k' v' hm => h t' k' v' (List.mem_cons_of_mem _ hm)

theorem setFind_not_found (key val : String) : ∀ (kids : List Node) (i idx : Nat),
    (getLoop kids key).2 = false →
    setFind key val kids i idx =
      Sum.inr (match lastPlain kids with
        | some j => i + j
        | none => idx) := by
  intro kids
  induction kids with
  | nil => intro i idx _; rfl
  | cons n rest ih =>
    intro i idx h
    cases n with
    | leaf t k v =>
      by_cases hp : isPref key.data k.data
      · simp only [getLoop, if_pos hp] at h
        exact Bool.noConfusion h
      · simp only [getLoop, if_neg hp] at h
        simp only [setFind, if_neg hp, ih (i + 1) (if t = LType.plain then i else idx) h]
        rcases hl : lastPlain rest with _ | j
        · cases t with
          | plain => simp [lastPlain, hl]
          | long => simp [lastPlain, hl]
          | text => simp [lastPlain, hl]
        · simp only [lastPlain, hl]
          have heq : i + 1 + j = i + (j + 1) := by omega
          rw [heq]
    | branch bk bks =>
      simp only [getLoop] at h
      simp only [setFind, ih (i + 1) idx h]
      rcases hl : lastPlain rest with _ | j
      · simp [lastPlain, hl]
      · simp only [lastPlain, hl]
        have heq : i + 1 + j = i + (j + 1) := by omega
        rw [heq]

theorem lastPlain_spec : ∀ {kids : List Node},
    (∀ j, lastPlain kids = some j →
      j < kids.length ∧ (∃ k v, kids[j]? = some (Node.leaf .plain k v)) ∧
        ∀ m k v, j < m → kids[m]? ≠ some (Node.leaf .plain k v)) ∧
    (lastPlain kids = none → ∀ k v, Node.leaf .plain k v ∉ kids) := by
  intro kids
  induction kids with
  | nil =>
    constructor
    · intro j h
      cases h
    · intro _ k v h
      cases h
  | cons n rest ih =>
    constructor
    · intro j h
      rcases hl : lastPlain rest with _ | j'
      · simp only [lastPlain, hl] at h
        cases n with
        | branch bk bks => cases h
        | leaf t k v =>
          cases t with
          | plain =>
            simp only [Option.some.injEq] at h
            subst h
            refine ⟨by simp, ⟨k, v, by simp⟩, ?_⟩
            intro m k' v' hm
            cases m with
            | zero => omega
            | succ m' =>
              simp only [List.getElem?_cons_succ]
              intro hc
              have hmem : Node.leaf .plain k' v' ∈ rest := by
                obtain ⟨hlt, he⟩ := List.getElem?_eq_some_iff.mp hc
                exact he ▸ List.getElem_mem _
              exact ih.2 hl k' v' hmem
          | long => cases h
          | text => cases h
      · simp only [lastPlain, hl, Option.some.injEq] at h
        subst h
        obtain ⟨hlt, ⟨k0, v0, hget⟩, hafter⟩ := ih.1 j' hl
        refine ⟨by simp; omega, ⟨k0, v0, by simpa using hget⟩, ?_⟩
        intro m k' v' hm
        cases m with
        | zero => omega
        | succ m' =>
          simp only [List.getElem?_cons_succ]
          exact hafter m' k' v' (by omega)
    · intro h k v hmem
      rcases hl : lastPlain rest with _ | j'
      · rcases List.mem_cons.mp hmem with he | hmem'
        · subst he
          simp only [lastPlain, hl] at h
          exact Option.noConfusion h
        · exact ih.2 hl k v hmem'
      · simp only [lastPlain, hl] at h
        exact Option.noConfusion h

theorem setFind_found (key val : String) : ∀ (kids : List Node) (i idx : Nat),
    (getLoop kids key).2 = true →
    ∃ l1 t k0 v0 l2, kids = l1 ++ Node.leaf t k0 v0 :: l2 ∧
      isPref key.data k0.data = true ∧
      (∀ t' k' v', Node.leaf t' k' v' ∈ l1 → isPref key.data k'.data = false) ∧
      setFind key val kids i idx = Sum.inl (l1 ++ Node.leaf t k0 val :: l2) ∧
      getLoop kids key = (v0, true) := by
  intro kids
  induction kids with
  | nil => intro i idx h; simp [getLoop] at h
  | cons n rest ih =>
    intro i idx h
    cases n with
    | leaf t k v =>
      by_cases hp : isPref key.data k.data
      · exact ⟨[], t, k, v, rest, rfl, hp, by simp,
          by simp [setFind, if_pos hp], by simp [getLoop, if_pos hp]⟩
      · simp only [getLoop, if_neg hp] at h
        obtain ⟨l1, t0, k0, v0, l2, hdec, hp0, hno, hsf, hgl⟩ :=
          ih (i + 1) (if t = LType.plain then i else idx) h
        refine ⟨Node.leaf t k v :: l1, t0, k0, v0, l2, by rw [hdec]; rfl, hp0, ?_, ?_, ?_⟩
        · intro t' k' v' hm
          rcases List.mem_cons.mp hm with he | hm'
          · injection he with h1 h2 h3
            subst h2
            simpa using hp
          · exact hno t' k' v' hm'
        · simp only [setFind, if_neg hp, hsf, List.cons_append]
        · simp only [getLoop, if_neg hp, hgl]
    | branch bk bks =>
      simp only [getLoop] at h
      obtain ⟨l1, t0, k0, v0, l2, hdec, hp0, hno, hsf, hgl⟩ := ih (i + 1) idx h
      refine ⟨Node.branch bk bks :: l1, t0, k0, v0, l2, by rw [hdec]; rfl, hp0, ?_, ?_, ?_⟩
      · intro t' k' v' hm
        rcases List.mem_cons.mp hm with he | hm'
        · cases he
        · exact hno t' k' v' hm'
      · simp only [setFind, hsf, List.cons_append]
      · simp only [getLoop, hgl]

theorem insertIdx_eq_take_drop {α : Type} : ∀ (n : Nat) (a : α) (l : List α), n ≤ l.length →
    List.insertIdx n a l = l.take n ++ a :: l.drop n
  | 0, a, l, _ => by simp
  | n + 1, a, [], h => by simp at h
  | n + 1, a, x :: xs, h => by
    rw [List.insertIdx_succ_cons, insertIdx_eq_take_drop n a xs (by simpa using h)]
    rfl

theorem getLoop_after_setFind {key val : String} {kids kids' : List Node} {i idx : Nat}
    (h : setFind key val kids i idx = Sum.inl kids') :
    getLoop kids' key = (val, true) := by
  cases hg : (getLoop kids key).2 with
  | false =>
    rw [setFind_not_found key val kids i idx hg] at h
    cases h
  | true =>
    obtain ⟨l1, t, k0, v0, l2, hdec, hp0, hno, hsf, hgl⟩ := setFind_found key val kids i idx hg
    rw [hsf] at h
    injection h with h0
    subst h0
    rw [getLoop_append_no_match hno]
    simp [getLoop, if_pos hp0]

theorem setFind_same {key v : String} {kids : List Node} (i idx : Nat)
    (hg : getLoop kids key = (v, true)) :
    setFind key v kids i idx = Sum.inl kids := by
  obtain ⟨l1, t, k0, v0, l2, hdec, hp0, hno, hsf, hgl⟩ :=
    setFind_found key v kids i idx (by rw [hg])
  rw [hgl] at hg
  injection hg with h1 _
  rw [hsf, hdec, h1]

theorem Get_SetField {iss iss' : Node} {key val : String}
    (h : SetField (some iss) key val = (true, some iss')) :
    Get (some iss') key = (val, true) := by
  cases iss with
  | leaf t k v =>
    simp only [SetField, Node.kids, setFind, insertKid, List.length_nil] at h
    rw [if_neg (by omega)] at h
    simp at h
  | branch k ks =>
    rcases hf : setFind key val ks 0 0 with kids' | idx
    · simp only [SetField, Node.kids, hf] at h
      simp only [Prod.mk.injEq, Option.some.injEq, true_and] at h
      subst h
      simp only [Get, Node.kids]
      exact getLoop_after_setFind hf
    · have hg : (getLoop ks key).2 = false := by
        cases hgt : (getLoop ks key).2 with
        | false => rfl
        | true =>
          obtain ⟨l1, t, k0, v0, l2, _, _, _, hsf, _⟩ := setFind_found key val ks 0 0 hgt
          rw [hsf] at hf
          cases hf
      simp only [SetField, Node.kids, hf, insertKid] at h
      by_cases hle : idx + 1 ≤ ks.length
      · rw [if_pos hle] at h
        simp only [Prod.mk.injEq, Option.some.injEq, true_and] at h
        subst h
        simp only [Get, Node.kids]
        rw [insertIdx_eq_take_drop _ _ _ hle]
        rw [getLoop_append_no_match ?_]
        · simp [getLoop, isPref_refl]
        · intro t' k' v' hm
          exact getLoop_false_iff.mp hg t' k' v' (List.mem_of_mem_take hm)
      · rw [if_neg hle] at h
        simp at h

theorem SetField_noop {iss : Node} {key v : String}
    (hg : Get (some iss) key = (v, true)) :
    SetField (some iss) key v = (true, some iss) := by
  cases iss with
  | leaf t k v' =>
    simp only [Get, Node.kids, getLoop, Prod.mk.injEq] at hg
    exact absurd hg.2 (by simp)
  | branch k ks =>
    simp only [Get, Node.kids] at hg
    simp only [SetField, Node.kids, Node.key, setFind_same 0 0 hg]

/-! ### C9: Set replaces the first match or inserts after the last plain leaf -/

/-- C9 counterexample: an issue whose children are a plain leaf `a` and a
long leaf `description` (the issue's *last leaf child*).  `Set` of an
unknown key inserts the new leaf *before* the `description` long leaf — at
the position after the last plain leaf — not immediately after the issue's
last leaf child as the claim states (resulting key order would then be
`a, description, newkey`). -/
theorem C9_cex_insert_before_long_leaf :
    SetField (some (Node.branch "i" [Node.leaf .plain "a" "x",
        Node.leaf .long "description" "d"])) "newkey" "v" =
      (true, some (Node.branch "i" [Node.leaf .plain "a" "x",
        Node.leaf .plain "newkey" "v", Node.leaf .long "description" "d"])) ∧
    (Node.leaf .long "description" "d" : Node).isBranch = false ∧
    ([Node.leaf .plain "a" "x", Node.leaf .plain "newkey" "v",
        Node.leaf .long "description" "d"].map Node.key) = ["a", "newkey", "description"] ∧
    (["a", "newkey", "description"] : List String) ≠ ["a", "description", "newkey"] :=
  ⟨rfl, rfl, rfl, by decide⟩

/-- C9 (amended): `Set` on a nil issue fails; when some leaf child's key
has the query as a prefix, the first such leaf gets its value replaced;
otherwise the fresh leaf is inserted immediately after the last *plain*
leaf child (long and text leaves do not advance the position; with no
plain leaf child the insert position is 1), which is in range — and `Set`
succeeds — whenever the issue has at least one child, while `Set` on an
issue with no children fails and leaves it unchanged. -/
theorem C9_SetField_characterization (k key val : String) (ks : List Node) :
    SetField none key val = (false, none) ∧
    ((getLoop ks key).2 = true →
      ∃ l1 t k0 v0 l2, ks = l1 ++ Node.leaf t k0 v0 :: l2 ∧
        isPref key.data k0.data = true ∧
        (∀ t' k' v', Node.leaf t' k' v' ∈ l1 → isPref key.data k'.data = false) ∧
        SetField (some (.branch k ks)) key val =
          (true, some (.branch k (l1 ++ Node.leaf t k0 val :: l2)))) ∧
    ((getLoop ks key).2 = false → ∀ j, lastPlain ks = some j →
      (∃ kk vv, ks[j]? = some (Node.leaf .plain kk vv)) ∧
      (∀ m kk vv, j < m → ks[m]? ≠ some (Node.leaf .plain kk vv)) ∧
      SetField (some (.branch k ks)) key val =
        (true, some (.branch k
          (ks.take (j + 1) ++ Node.leaf .plain key val :: ks.drop (j + 1))))) ∧
    ((getLoop ks key).2 = false → lastPlain ks = none → ks ≠ [] →
      (∀ kk vv, Node.leaf .plain kk vv ∉ ks) ∧
      SetField (some (.branch k ks)) key val =
        (true, some (.branch k (ks.take 1 ++ Node.leaf .plain key val :: ks.drop 1)))) ∧
    ((getLoop ks key).2 = false → ks = [] →
      SetField (some (.branch k ks)) key val = (false, some (.branch k ks))) := by
  refine ⟨rfl, ?_, ?_, ?_, ?_⟩
  · intro hg
    obtain ⟨l1, t, k0, v0, l2, hdec, hp0, hno, hsf, hgl⟩ := setFind_found key val ks 0 0 hg
    exact ⟨l1, t, k0, v0, l2, hdec, hp0, hno,
      by simp only [SetField, Node.kids, Node.key, hsf]⟩
  · intro hg j hlp
    obtain ⟨hlt, hat, hafter⟩ := lastPlain_spec.1 j hlp
    refine ⟨hat, fun m kk vv hm => hafter m kk vv hm, ?_⟩
    have hsf := setFind_not_found key val ks 0 0 hg
    rw [hlp] at hsf
    simp only [Nat.zero_add] at hsf
    simp only [SetField, Node.kids, Node.key, hsf, insertKid]
    rw [if_pos (by omega), insertIdx_eq_take_drop _ _ _ (by omega)]
  · intro hg hlp hne
    refine ⟨fun kk vv => lastPlain_spec.2 hlp kk vv, ?_⟩
    have hsf := setFind_not_found key val ks 0 0 hg
    rw [hlp] at hsf
    have hlen : 1 ≤ ks.length := by
      cases ks with
      | nil => exact absurd rfl hne
      | cons a l => simp
    simp only [SetField, Node.kids, Node.key, hsf, insertKid]
    rw [if_pos (by omega), insertIdx_eq_take_drop _ _ _ (by omega)]
  · intro hg he
    subst he
    rfl

/-- C9 witness. -/
theorem C9_SetField_witness :
    SetField (some (Node.branch "i" [Node.leaf .plain "a" "x",
        Node.leaf .long "description" "d"])) "new" "v" =
      (true, some (Node.branch "i"
        ([Node.leaf .plain "a" "x", Node.leaf .long "description" "d"].take (0 + 1) ++
          Node.leaf .plain "new" "v" ::
            [Node.leaf .plain "a" "x", Node.leaf .long "description" "d"].drop (0 + 1)))) :=
  ((C9_SetField_characterization "i" "new" "v"
    [Node.leaf .plain "a" "x", Node.leaf .long "description" "d"]).2.2.1 rfl 0 rfl).2.2

/-! ### Lemmas: fields, join, trim -/

theorem asString_data (s : String) : List.asString s.data = s := by
  cases s
  rfl

theorem fieldsAux_good : ∀ (l acc : List Char), (∀ c ∈ acc, ¬c.isWhitespace) →
    ∀ w ∈ fieldsAux l acc, w ≠ [] ∧ ∀ c ∈ w, ¬c.isWhitespace := by
  intro l
  induction l with
  | nil =>
    intro acc hacc w hw
    rw [fieldsAux] at hw
    split_ifs at hw with he
    · cases hw
    · rw [List.mem_singleton] at hw
      subst hw
      refine ⟨by simpa using he, ?_⟩
      intro c hc
      exact hacc c (List.mem_reverse.mp hc)
  | cons c cs ih =>
    intro acc hacc w hw
    rw [fieldsAux] at hw
    split_ifs at hw with hws he
    · exact ih [] (by simp) w hw
    · rcases List.mem_cons.mp hw with he' | hw'
      · subst he'
        refine ⟨by simpa using he, ?_⟩
        intro c' hc'
        exact hacc c' (List.mem_reverse.mp hc')
      · exact ih [] (by simp) w hw'
    · refine ih (c :: acc) ?_ w hw
      intro c' hc'
      rcases List.mem_cons.mp hc' with he' | hm'
      · subst he'
        exact by simpa using hws
      · exact hacc c' hm'

theorem fields_good {s : String} : ∀ x ∈ fields s, x ≠ "" ∧ ∀ c ∈ x.data, ¬c.isWhitespace := by
  intro x hx
  rw [fields, List.mem_map] at hx
  obtain ⟨w, hw, he⟩ := hx
  obtain ⟨hne, hws⟩ := fieldsAux_good s.data [] (by simp) w hw
  subst he
  constructor
  · intro hc
    have : w = ("" : String).data := by
      have := congrArg String.data hc
      simpa using this
    simp at this
    exact hne this
  · intro c hc
    exact hws c (by simpa using hc)

theorem fieldsAux_chunk : ∀ (w : List Char), (∀ c ∈ w, ¬c.isWhitespace) →
    ∀ (cs acc : List Char), fieldsAux (w ++ cs) acc = fieldsAux cs (w.reverse ++ acc) := by
  intro w
  induction w with
  | nil => intro _ cs acc; simp
  | cons c w' ih =>
    intro h cs acc
    have hc : ¬c.isWhitespace := h c (List.mem_cons_self _ _)
    rw [List.cons_append, fieldsAux, if_neg (by simpa using hc),
      ih (fun c' hc' => h c' (List.mem_cons_of_mem _ hc')) cs (c :: acc)]
    congr 1
    simp

theorem fields_joinSpace : ∀ (S : List String),
    (∀ x ∈ S, x ≠ "" ∧ ∀ c ∈ x.data, ¬c.isWhitespace) →
    fields (joinSpace S) = S := by
  intro S
  induction S with
  | nil => intro _; rfl
  | cons s rest ih =>
    intro h
    obtain ⟨hne, hws⟩ := h s (List.mem_cons_self _ _)
    have hs : s.data ≠ [] := by
      intro hc
      apply hne
      cases s
      exact String.ext (by simpa using hc)
    cases rest with
    | nil =>
      show fields s = [s]
      rw [fields]
      have : fieldsAux s.data [] = fieldsAux ([] : List Char) (s.data.reverse ++ []) := by
        have := fieldsAux_chunk s.data hws [] []
        simpa using this
      rw [this, fieldsAux, if_neg (by simpa using hs)]
      simp [asString_data]
    | cons s2 rest' =>
      have hrest : ∀ x ∈ s2 :: rest', x ≠ "" ∧ ∀ c ∈ x.data, ¬c.isWhitespace :=
        fun x hx => h x (List.mem_cons_of_mem _ hx)
      show fields (s ++ " " ++ joinSpace (s2 :: rest')) = s :: s2 :: rest'
      rw [fields, String.data_append, String.data_append]
      have hsp : (" " : String).data = [' '] := rfl
      rw [hsp, List.append_assoc, fieldsAux_chunk s.data hws _ []]
      rw [List.cons_append, fieldsAux]
      rw [if_pos (by decide), if_neg (by simpa using hs)]
      have ihr := ih hrest
      rw [fields] at ihr
      simp only [List.map_cons, List.append_nil, List.nil_append, List.reverse_reverse,
        asString_data, ihr]

/-! ### Lemmas: the string sort -/

theorem strLeP_total : IsTotal String (fun a b => strLe a b = true) :=
  ⟨fun a b => by
    have h := strLe_total a b
    cases hab : strLe a b with
    | true => exact Or.inl rfl
    | false =>
      rw [hab] at h
      simp only [Bool.false_or] at h
      exact Or.inr h⟩

theorem strLeP_trans : IsTrans String (fun a b => strLe a b = true) :=
  ⟨fun a b c => strLe_trans a b c⟩

theorem strLeP_antisymm : IsAntisymm String (fun a b => strLe a b = true) :=
  ⟨fun a b h1 h2 => strLe_antisymm h1 h2⟩

theorem sortStrings_perm (l : List String) : (sortStrings l).Perm l :=
  List.perm_insertionSort _ l

theorem sortStrings_sorted (l : List String) :
    (sortStrings l).Pairwise (fun a b => strLe a b = true) := by
  haveI := strLeP_total
  haveI := strLeP_trans
  exact List.sorted_insertionSort _ l

theorem sortStrings_idem (l : List String) : sortStrings (sortStrings l) = sortStrings l :=
  List.Sorted.insertionSort_eq (sortStrings_sorted l)

theorem lexLt_nil : ∀ l : List Char, lexLt l [] = false
  | [] => rfl
  | _ :: _ => rfl

theorem strLe_empty_left (s : String) : strLe "" s = true := by
  simp [strLe, strLt, lexLt_nil]

theorem sortStrings_replicate_empty (n : Nat) (S : List String) :
    sortStrings (List.replicate n "" ++ S) = List.replicate n "" ++ sortStrings S := by
  apply @List.Perm.eq_of_sorted String (fun a b => strLe a b = true)
  · intro a b _ _ hab hba
    exact strLe_antisymm hab hba
  · exact sortStrings_sorted _
  · rw [List.pairwise_append]
    refine ⟨?_, sortStrings_sorted S, ?_⟩
    · rw [List.pairwise_iff_forall_sublist]
      intro a b hab
      have ha : a = "" := (List.mem_replicate.mp (hab.subset (by simp))).2
      subst ha
      exact strLe_empty_left b
    · intro a ha b _
      have ha' : a = "" := (List.mem_replicate.mp ha).2
      subst ha'
      exact strLe_empty_left b
  · exact (sortStrings_perm _).trans (List.Perm.append_left _ (sortStrings_perm S).symm)

/-! ### Lemmas: trimming -/

theorem trimSpace_replicate_space (n : Nat) (s : String) :
    trimSpace ⟨List.replicate n ' ' ++ s.data⟩ = trimSpace s := by
  rw [trimSpace, trimSpace]
  have : (List.replicate n ' ' ++ s.data).dropWhile Char.isWhitespace =
      s.data.dropWhile Char.isWhitespace := by
    induction n with
    | zero => simp
    | succ m ih =>
      rw [List.replicate_succ, List.cons_append, List.dropWhile_cons, if_pos (by decide)]
      exact ih
  rw [this]

theorem trimSpace_of_good_ends {s : String}
    (hf : ∃ c l, s.data = c :: l ∧ ¬c.isWhitespace)
    (hb : ∃ c l, s.data.reverse = c :: l ∧ ¬c.isWhitespace) :
    trimSpace s = s := by
  obtain ⟨c, l, he, hw⟩ := hf
  obtain ⟨c2, l2, he2, hw2⟩ := hb
  rw [trimSpace]
  have h1 : s.data.dropWhile Char.isWhitespace = s.data := by
    rw [he, List.dropWhile_cons, if_neg (by simpa using hw)]
  rw [h1, he2, List.dropWhile_cons, if_neg (by simpa using hw2), ← he2]
  rw [List.reverse_reverse]

theorem joinSpace_replicate_empty (n : Nat) (S : List String) (hne : S ≠ []) :
    (joinSpace (List.replicate n "" ++ S)).data = List.replicate n ' ' ++ (joinSpace S).data := by
  induction n with
  | zero => simp
  | succ m ih =>
    rw [List.replicate_succ, List.cons_append]
    have hcons : ∃ y ys, List.replicate m "" ++ S = y :: ys := by
      cases hm : List.replicate m "" ++ S with
      | nil =>
        rcases List.append_eq_nil.mp hm with ⟨_, h2⟩
        exact absurd h2 hne
      | cons y ys => exact ⟨y, ys, rfl⟩
    obtain ⟨y, ys, hys⟩ := hcons
    rw [hys]
    show (("" : String) ++ " " ++ joinSpace (y :: ys)).data = _
    rw [← hys, String.data_append, String.data_append]
    simp only [ih]
    rfl

theorem joinSpace_head_good (S : List String)
    (hgood : ∀ x ∈ S, x ≠ "" ∧ ∀ c ∈ x.data, ¬c.isWhitespace) (hne : S ≠ []) :
    ∃ c l, (joinSpace S).data = c :: l ∧ ¬c.isWhitespace := by
  cases S with
  | nil => exact absurd rfl hne
  | cons s rest =>
    obtain ⟨hsne, hsws⟩ := hgood s (List.mem_cons_self _ _)
    have hs : ∃ c cs, s.data = c :: cs := by
      cases hd : s.data with
      | nil =>
        exact absurd (by cases s; exact String.ext (by simpa using hd)) hsne
      | cons c cs => exact ⟨c, cs, rfl⟩
    obtain ⟨c, cs, hd⟩ := hs
    have hcw : ¬c.isWhitespace := hsws c (by rw [hd]; exact List.mem_cons_self _ _)
    cases rest with
    | nil => exact ⟨c, cs, hd, hcw⟩
    | cons r rs =>
      refine ⟨c, cs ++ (" " ++ joinSpace (r :: rs)).data, ?_, hcw⟩
      show (s ++ " " ++ joinSpace (r :: rs)).data = _
      rw [String.data_append, String.data_append, hd]
      simp [String.data_append]

theorem joinSpace_last_good : ∀ (S : List String),
    (∀ x ∈ S, x ≠ "" ∧ ∀ c ∈ x.data, ¬c.isWhitespace) → S ≠ [] →
    ∃ c l, (joinSpace S).data.reverse = c :: l ∧ ¬c.isWhitespace := by
  intro S
  induction S with
  | nil => intro _ hne; exact absurd rfl hne
  | cons s rest ih =>
    intro hgood _
    obtain ⟨hsne, hsws⟩ := hgood s (List.mem_cons_self _ _)
    cases rest with
    | nil =>
      have hs : ∃ c cs, s.data.reverse = c :: cs := by
        cases hd : s.data.reverse with
        | nil =>
          have : s.data = [] := by simpa using congrArg List.reverse hd
          exact absurd (by cases s; exact String.ext (by simpa using this)) hsne
        | cons c cs => exact ⟨c, cs, rfl⟩
      obtain ⟨c, cs, hd⟩ := hs
      refine ⟨c, cs, hd, ?_⟩
      have : c ∈ s.data := by
        rw [← List.mem_reverse, hd]
        exact List.mem_cons_self _ _
      exact hsws c this
    | cons r rs =>
      obtain ⟨c, l, hrev, hcw⟩ := ih (fun x hx => hgood x (List.mem_cons_of_mem _ hx)) (by simp)
      refine ⟨c, l ++ ((s ++ " " : String)).data.reverse, ?_, hcw⟩
      show (s ++ " " ++ joinSpace (r :: rs)).data.reverse = _
      rw [String.data_append, List.reverse_append, hrev]
      rfl

theorem setToTagStr_eq (S : List String)
    (hgood : ∀ x ∈ S, x ≠ "" ∧ ∀ c ∈ x.data, ¬c.isWhitespace) :
    setToTagStr S = joinSpace (sortStrings S) := by
  rw [setToTagStr, sortStrings_replicate_empty]
  cases hS : sortStrings S with
  | nil =>
    have hp := sortStrings_perm S
    rw [hS] at hp
    have : S = [] := hp.symm.eq_nil
    subst this
    rfl
  | cons y ys =>
    have hgood' : ∀ x ∈ y :: ys, x ≠ "" ∧ ∀ c ∈ x.data, ¬c.isWhitespace := by
      intro x hx
      exact hgood x ((sortStrings_perm S).subset (hS ▸ hx))
    have hdata := joinSpace_replicate_empty S.length (y :: ys) (by simp)
    have h1 : trimSpace (joinSpace (List.replicate S.length "" ++ y :: ys)) =
        trimSpace (joinSpace (y :: ys)) := by
      have h2 := trimSpace_replicate_space S.length (joinSpace (y :: ys))
      rw [← h2]
      congr 1
      exact String.ext hdata
    rw [h1]
    exact trimSpace_of_good_ends (joinSpace_head_good _ hgood' (by simp))
      (joinSpace_last_good _ hgood' (by simp))

/-! ### Lemmas: the tag set -/

theorem foldl_ins_mem : ∀ (L acc : List String) (x : String),
    (x ∈ L.foldl (fun s t => if t ∈ s then s else s ++ [t]) acc ↔ x ∈ acc ∨ x ∈ L) := by
  intro L
  induction L with
  | nil => intro acc x; simp
  | cons t L' ih =>
    intro acc x
    rw [List.foldl_cons, ih]
    by_cases ht : t ∈ acc
    · rw [if_pos ht]
      constructor
      · rintro (h | h)
        · exact Or.inl h
        · exact Or.inr (List.mem_cons_of_mem _ h)
      · rintro (h | h)
        · exact Or.inl h
        · rcases List.mem_cons.mp h with he | h'
          · exact Or.inl (he ▸ ht)
          · exact Or.inr h'
    · rw [if_neg ht]
      constructor
      · rintro (h | h)
        · rcases List.mem_append.mp h with h' | h'
          · exact Or.inl h'
          · exact Or.inr (List.mem_cons.mpr (Or.inl (List.mem_singleton.mp h')))
        · exact Or.inr (List.mem_cons_of_mem _ h)
      · rintro (h | h)
        · exact Or.inl (List.mem_append.mpr (Or.inl h))
        · rcases List.mem_cons.mp h with he | h'
          · exact Or.inl (List.mem_append.mpr (Or.inr (List.mem_singleton.mpr he)))
          · exact Or.inr h'

theorem foldl_ins_nodup : ∀ (L acc : List String), acc.Nodup →
    (L.foldl (fun s t => if t ∈ s then s else s ++ [t]) acc).Nodup := by
  intro L
  induction L with
  | nil => intro acc h; exact h
  | cons t L' ih =>
    intro acc h
    rw [List.foldl_cons]
    by_cases ht : t ∈ acc
    · rw [if_pos ht]
      exact ih acc h
    · rw [if_neg ht]
      refine ih _ ?_
      simp [List.nodup_append, h, ht]

theorem foldl_ins_of_nodup : ∀ (L acc : List String), (acc ++ L).Nodup →
    L.foldl (fun s t => if t ∈ s then s else s ++ [t]) acc = acc ++ L := by
  intro L
  induction L with
  | nil => intro acc _; simp
  | cons t L' ih =>
    intro acc h
    have ht : t ∉ acc := by
      rw [List.nodup_append] at h
      intro hc
      exact h.2.2 hc (List.mem_cons_self _ _)
    rw [List.foldl_cons, if_neg ht, ih (acc ++ [t]) (by simpa using h)]
    simp

theorem tagStrToSet_nodup (s : String) : (tagStrToSet s).Nodup :=
  foldl_ins_nodup _ [] (by simp)

theorem mem_tagStrToSet {x : String} {s : String} : x ∈ tagStrToSet s ↔ x ∈ fields s := by
  rw [tagStrToSet, foldl_ins_mem]
  simp

theorem tagStrToSet_good {s : String} :
    ∀ x ∈ tagStrToSet s, x ≠ "" ∧ ∀ c ∈ x.data, ¬c.isWhitespace :=
  fun x hx => fields_good x (mem_tagStrToSet.mp hx)

theorem tagStrToSet_canonical (S : List String)
    (hgood : ∀ x ∈ S, x ≠ "" ∧ ∀ c ∈ x.data, ¬c.isWhitespace) (hnd : S.Nodup) :
    tagStrToSet (setToTagStr S) = sortStrings S := by
  rw [setToTagStr_eq S hgood, tagStrToSet]
  have hgood' : ∀ x ∈ sortStrings S, x ≠ "" ∧ ∀ c ∈ x.data, ¬c.isWhitespace :=
    fun x hx => hgood x ((sortStrings_perm S).subset hx)
  rw [fields_joinSpace _ hgood']
  have hnd' : (sortStrings S).Nodup := ((sortStrings_perm S).nodup_iff).mpr hnd
  have := foldl_ins_of_nodup (sortStrings S) [] (by simpa using hnd')
  simpa using this

theorem mem_tagInsert {S : List String} {t x : String} :
    x ∈ tagInsert S t ↔ x ∈ S ∨ x = t := by
  rw [tagInsert]
  split_ifs with h
  · constructor
    · exact Or.inl
    · rintro (hx | hx)
      · exact hx
      · exact hx ▸ h
  · simp [List.mem_append]

theorem tagInsert_nodup {S : List String} {t : String} (h : S.Nodup) : (tagInsert S t).Nodup := by
  rw [tagInsert]
  split_ifs with ht
  · exact h
  · simp [List.nodup_append, h, ht]

theorem tagInsert_good {S : List String} {t : String}
    (hgood : ∀ x ∈ S, x ≠ "" ∧ ∀ c ∈ x.data, ¬c.isWhitespace)
    (htne : t ≠ "") (htws : ∀ c ∈ t.data, ¬c.isWhitespace) :
    ∀ x ∈ tagInsert S t, x ≠ "" ∧ ∀ c ∈ x.data, ¬c.isWhitespace := by
  intro x hx
  rcases mem_tagInsert.mp hx with h | h
  · exact hgood x h
  · exact h ▸ ⟨htne, htws⟩

theorem tagInsert_eq_of_mem {S : List String} {t : String} (h : t ∈ S) : tagInsert S t = S := by
  rw [tagInsert, if_pos h]

theorem tagErase_eq_of_not_mem {S : List String} {t : String} (h : t ∉ S) : tagErase S t = S := by
  rw [tagErase]
  apply List.filter_eq_self.mpr
  intro x hx
  simp only [ne_eq, decide_eq_true_eq]
  intro he
  exact h (he ▸ hx)

theorem SetField_cases (iss : Node) (key val : String) :
    (∃ iss', SetField (some iss) key val = (true, some iss')) ∨
    SetField (some iss) key val = (false, some iss) := by
  cases iss with
  | leaf t k v =>
    right
    simp only [SetField, Node.kids, setFind, insertKid, List.length_nil]
    rw [if_neg (by omega)]
  | branch k ks =>
    rcases hf : setFind key val ks 0 0 with kids' | idx
    · exact Or.inl ⟨.branch k kids', by simp only [SetField, Node.kids, Node.key, hf]⟩
    · rcases hi : insertKid ks (.leaf .plain key val) (idx + 1) with _ | kids'
      · right
        simp only [SetField, Node.kids, Node.key, hf, hi]
      · exact Or.inl ⟨.branch k kids', by simp only [SetField, Node.kids, Node.key, hf, hi]⟩

/-! ### C7: the tag codec -/

/-- C7 counterexample: a tag containing whitespace breaks idempotence.
Adding the tag "a b" to an issue with an empty tags field stores "a b";
adding the same tag again re-parses that field as the two tags "a" and
"b", inserts "a b" as a third element, and stores "a a b b" — a different
tags-field string, so adding twice is not the same as adding once. -/
theorem C7_cex_whitespace_tag :
    (Get (ModifyTag (some (Node.branch "i1" [Node.leaf .plain "tags" ""])) "a b" true).2
        "tag").1 = "a b" ∧
    (Get (ModifyTag
        (ModifyTag (some (Node.branch "i1" [Node.leaf .plain "tags" ""])) "a b" true).2
        "a b" true).2 "tag").1 = "a a b b" ∧
    ("a a b b" : String) ≠ "a b" := by
  refine ⟨by decide, by decide, by decide⟩

/-- C7 (amended): for every issue and every non-empty, whitespace-free
tag, `ModifyTag` is idempotent and canonicalizing: adding the tag twice
produces exactly the same result as adding it once; the value written by
an add is the space-joined, sorted, deduplicated representation of the
parsed tag set with the tag inserted; and removing an absent tag from an
already-canonical tags field leaves the issue entirely unchanged. -/
theorem C7_ModifyTag_idempotent_canonical (iss : Node) (tag : String)
    (htne : tag ≠ "") (htws : ∀ c ∈ tag.data, ¬c.isWhitespace) :
    (ModifyTag (ModifyTag (some iss) tag true).2 tag true = ModifyTag (some iss) tag true) ∧
    (∀ old, Get (some iss) "tag" = (old, true) → ∃ iss',
      ModifyTag (some iss) tag true = (true, some iss') ∧
      Get (some iss') "tag" =
        (joinSpace (sortStrings (tagInsert (tagStrToSet old) tag)), true) ∧
      fields (joinSpace (sortStrings (tagInsert (tagStrToSet old) tag))) =
        sortStrings (tagInsert (tagStrToSet old) tag) ∧
      (sortStrings (tagInsert (tagStrToSet old) tag)).Nodup ∧
      (sortStrings (tagInsert (tagStrToSet old) tag)).Pairwise (strLe · ·)) ∧
    (∀ old, Get (some iss) "tag" = (old, true) →
      old = setToTagStr (tagStrToSet old) → tag ∉ fields old →
      ModifyTag (some iss) tag false = (true, some iss)) := by
  have good0 : ∀ x ∈ tagStrToSet (Get (some iss) "tag").1,
      x ≠ "" ∧ ∀ c ∈ x.data, ¬c.isWhitespace := tagStrToSet_good
  have goodS1 : ∀ x ∈ tagInsert (tagStrToSet (Get (some iss) "tag").1) tag,
      x ≠ "" ∧ ∀ c ∈ x.data, ¬c.isWhitespace := tagInsert_good good0 htne htws
  have ndS1 : (tagInsert (tagStrToSet (Get (some iss) "tag").1) tag).Nodup :=
    tagInsert_nodup (tagStrToSet_nodup _)
  have hstr1 : setToTagStr (tagInsert (tagStrToSet (Get (some iss) "tag").1) tag) =
      joinSpace (sortStrings (tagInsert (tagStrToSet (Get (some iss) "tag").1) tag)) :=
    setToTagStr_eq _ goodS1
  refine ⟨?_, ?_, ?_⟩
  · have hM1 : ModifyTag (some iss) tag true =
        SetField (some iss) "tag"
          (setToTagStr (tagInsert (tagStrToSet (Get (some iss) "tag").1) tag)) := rfl
    rcases SetField_cases iss "tag"
        (setToTagStr (tagInsert (tagStrToSet (Get (some iss) "tag").1) tag)) with ⟨iss', h1⟩ | h1
    · have hGet' : Get (some iss') "tag" =
          (setToTagStr (tagInsert (tagStrToSet (Get (some iss) "tag").1) tag), true) :=
        Get_SetField (hM1 ▸ (hM1 ▸ h1))
      have hM1' : ModifyTag (some iss) tag true = (true, some iss') := by rw [hM1, h1]
      rw [hM1']
      show SetField (some iss') "tag"
        (setToTagStr (tagInsert (tagStrToSet (Get (some iss') "tag").1) tag)) = (true, some iss')
      rw [hGet']
      show SetField (some iss') "tag"
        (setToTagStr (tagInsert
          (tagStrToSet (setToTagStr (tagInsert (tagStrToSet (Get (some iss) "tag").1) tag))) tag))
        = (true, some iss')
      have hround : tagStrToSet
          (setToTagStr (tagInsert (tagStrToSet (Get (some iss) "tag").1) tag)) =
          sortStrings (tagInsert (tagStrToSet (Get (some iss) "tag").1) tag) :=
        tagStrToSet_canonical _ goodS1 ndS1
      have htmem : tag ∈ sortStrings (tagInsert (tagStrToSet (Get (some iss) "tag").1) tag) :=
        (sortStrings_perm _).mem_iff.mpr (mem_tagInsert.mpr (Or.inr rfl))
      have goodSorted : ∀ x ∈ sortStrings (tagInsert (tagStrToSet (Get (some iss) "tag").1) tag),
          x ≠ "" ∧ ∀ c ∈ x.data, ¬c.isWhitespace :=
        fun x hx => goodS1 x ((sortStrings_perm _).subset hx)
      have hstr2 : setToTagStr (tagInsert
          (tagStrToSet (setToTagStr (tagInsert (tagStrToSet (Get (some iss) "tag").1) tag))) tag) =
          setToTagStr (tagInsert (tagStrToSet (Get (some iss) "tag").1) tag) := by
        rw [hround, tagInsert_eq_of_mem htmem, setToTagStr_eq _ goodSorted, sortStrings_idem,
          ← hstr1]
      rw [hstr2]
      exact SetField_noop hGet'
    · have hM1' : ModifyTag (some iss) tag true = (false, some iss) := by rw [hM1, h1]
      rw [hM1']
      exact hM1'
  · intro old hGet
    have hold : (Get (some iss) "tag").1 = old := by rw [hGet]
    cases iss with
    | leaf t k v =>
      simp only [Get, Node.kids, getLoop, Prod.mk.injEq] at hGet
      exact absurd hGet.2 (by simp)
    | branch k ks =>
      have hfound : (getLoop ks "tag").2 = true := by
        simp only [Get, Node.kids] at hGet
        rw [hGet]
      obtain ⟨l1, t0, k0, v0, l2, hdec, hp0, hno, hsf, hgl⟩ :=
        setFind_found "tag" (setToTagStr (tagInsert (tagStrToSet old) tag)) ks 0 0 hfound
      have h1 : SetField (some (.branch k ks)) "tag"
          (setToTagStr (tagInsert (tagStrToSet old) tag)) =
          (true, some (.branch k (l1 ++ Node.leaf t0 k0
            (setToTagStr (tagInsert (tagStrToSet old) tag)) :: l2))) := by
        simp only [SetField, Node.kids, Node.key, hsf]
      have hM : ModifyTag (some (Node.branch k ks)) tag true =
          SetField (some (Node.branch k ks)) "tag"
            (setToTagStr (tagInsert (tagStrToSet (Get (some (Node.branch k ks)) "tag").1) tag)) :=
        rfl
      rw [hold] at hM
      have heq := setToTagStr_eq (tagInsert (tagStrToSet old) tag)
        (tagInsert_good (tagStrToSet_good) htne htws)
      rw [heq] at hM h1
      refine ⟨_, hM.trans h1, Get_SetField h1, ?_, ?_, ?_⟩
      · exact fields_joinSpace _
          (fun x hx => (tagInsert_good (tagStrToSet_good) htne htws) x
            ((sortStrings_perm _).subset hx))
      · exact ((sortStrings_perm _).nodup_iff).mpr (tagInsert_nodup (tagStrToSet_nodup _))
      · exact sortStrings_sorted _
  · intro old hGet hcanon habs
    have hold : (Get (some iss) "tag").1 = old := by rw [hGet]
    have hM : ModifyTag (some iss) tag false =
        SetField (some iss) "tag"
          (setToTagStr (tagErase (tagStrToSet (Get (some iss) "tag").1) tag)) := rfl
    rw [hold] at hM
    have herase : tagErase (tagStrToSet old) tag = tagStrToSet old :=
      tagErase_eq_of_not_mem (fun hc => habs (mem_tagStrToSet.mp hc))
    rw [hM, herase, ← hcanon]
    exact SetField_noop hGet

/-- C7 witness. -/
theorem C7_ModifyTag_witness :
    (ModifyTag (ModifyTag (some (Node.branch "i1" [Node.leaf .plain "tags" "a b"])) "c" true).2
        "c" true =
      ModifyTag (some (Node.branch "i1" [Node.leaf .plain "tags" "a b"])) "c" true) ∧
    ModifyTag (some (Node.branch "i1" [Node.leaf .plain "tags" "a b"])) "c" false =
      (true, some (Node.branch "i1" [Node.leaf .plain "tags" "a b"])) :=
  ⟨(C7_ModifyTag_idempotent_canonical (Node.branch "i1" [Node.leaf .plain "tags" "a b"]) "c"
      (by decide) (by decide)).1,
   (C7_ModifyTag_idempotent_canonical (Node.branch "i1" [Node.leaf .plain "tags" "a b"]) "c"
      (by decide) (by decide)).2.2 "a b" rfl (by decide) (by decide)⟩

/-! ### Lemmas: the edit-merge machinery -/

theorem mergeScan_no_match {id stamp : String} : ∀ {eds : List Node} {cur : Node},
    (∀ n ∈ eds, n.isBranch = true → isPref id.data n.key.data = false) →
    mergeScan eds id stamp cur = (cur, false) := by
  intro eds
  induction eds with
  | nil => intro cur _; rfl
  | cons n rest ih =>
    intro cur h
    cases n with
    | branch k ks =>
      have hp : isPref id.data k.data = false := by
        have := h (.branch k ks) (List.mem_cons_self _ _) rfl
        simpa [Node.key] using this
      rw [mergeScan, if_neg (by simp [hp])]
      exact ih fun n hn hb => h n (List.mem_cons_of_mem _ hn) hb
    | leaf t k v =>
      rw [mergeScan]
      exact ih fun n hn hb => h n (List.mem_cons_of_mem _ hn) hb

theorem mergeScan_matched {id stamp : String} : ∀ {eds : List Node} {cur : Node},
    (mergeScan eds id stamp cur).2 = true →
    ∃ n ∈ eds, n.isBranch = true ∧ isPref id.data n.key.data = true := by
  intro eds
  induction eds with
  | nil => intro cur h; cases h
  | cons n rest ih =>
    intro cur h
    cases n with
    | branch k ks =>
      by_cases hp : isPref id.data k.data
      · exact ⟨.branch k ks, List.mem_cons_self _ _, rfl, by simpa [Node.key] using hp⟩
      · rw [mergeScan, if_neg (by simp [hp])] at h
        obtain ⟨m, hm, hb, hpm⟩ := ih h
        exact ⟨m, List.mem_cons_of_mem _ hm, hb, hpm⟩
    | leaf t k v =>
      rw [mergeScan] at h
      obtain ⟨m, hm, hb, hpm⟩ := ih h
      exact ⟨m, List.mem_cons_of_mem _ hm, hb, hpm⟩

theorem mergeScan_stamped {id stamp : String} : ∀ {eds : List Node} {cur : Node},
    (mergeScan eds id stamp cur).2 = true →
    Get (some (mergeScan eds id stamp cur).1) "updated" = (stamp, true) := by
  intro eds
  induction eds with
  | nil => intro cur h; cases h
  | cons n rest ih =>
    intro cur h
    cases n with
    | branch k ks =>
      by_cases hp : isPref id.data k.data
      · rcases hS : SetField (some (.branch k ks)) "updated" stamp with ⟨b, o⟩
        cases b with
        | true =>
          cases o with
          | some r =>
            rw [mergeScan, if_pos hp, hS]
            exact Get_SetField hS
          | none =>
            rcases SetField_cases (.branch k ks) "updated" stamp with ⟨iss', hc⟩ | hc <;>
                rw [hS] at hc
            · exact absurd (congrArg Prod.snd hc) (by simp)
            · exact absurd (congrArg Prod.fst hc) (by simp)
        | false =>
          rw [mergeScan, if_pos hp, hS] at h ⊢
          exact ih h
      · rw [mergeScan, if_neg (by simp [hp])] at h ⊢
        exact ih h
    | leaf t k v =>
      rw [mergeScan] at h ⊢
      exact ih h

theorem mergeAll_no_match {issues eds : List Node} {stamp : String} : ∀ (ids : List String)
    (acc : List Node × Bool),
    (∀ id ∈ ids, ∀ n ∈ eds, n.isBranch = true → isPref id.data n.key.data = false) →
    (ids.foldl
      (fun acc id =>
        match issuePos issues id with
        | none => acc
        | some p =>
          match acc.1[p]? with
          | none => acc
          | some cur =>
            let r := mergeScan eds id stamp cur
            (acc.1.set p r.1, acc.2 || r.2))
      acc).2 = acc.2 := by
  intro ids
  induction ids with
  | nil => intro acc _; rfl
  | cons id rest ih =>
    intro acc h
    rw [List.foldl_cons]
    have hrest : ∀ id ∈ rest, ∀ n ∈ eds, n.isBranch = true → isPref id.data n.key.data = false :=
      fun i hi => h i (List.mem_cons_of_mem _ hi)
    rcases hip : issuePos issues id with _ | p
    · simp only [hip]
      exact ih acc hrest
    · simp only [hip]
      rcases hget : acc.1[p]? with _ | cur
      · simp only [hget]
        exact ih acc hrest
      · simp only [hget]
        have hms : mergeScan eds id stamp cur = (cur, false) :=
          mergeScan_no_match (h id (List.mem_cons_self _ _))
        rw [ih _ hrest]
        simp [hms]

theorem mergeAll_matched {issues eds : List Node} {stamp : String} : ∀ (ids : List String)
    (acc : List Node × Bool),
    (ids.foldl
      (fun acc id =>
        match issuePos issues id with
        | none => acc
        | some p =>
          match acc.1[p]? with
          | none => acc
          | some cur =>
            let r := mergeScan eds id stamp cur
            (acc.1.set p r.1, acc.2 || r.2))
      acc).2 = true →
    acc.2 = true ∨ ∃ id ∈ ids, ∃ n ∈ eds, n.isBranch = true ∧ isPref id.data n.key.data = true := by
  intro ids
  induction ids with
  | nil => intro acc h; exact Or.inl h
  | cons id rest ih =>
    intro acc h
    rw [List.foldl_cons] at h
    rcases hip : issuePos issues id with _ | p
    · simp only [hip] at h
      rcases ih acc h with h' | ⟨i, hi, hn⟩
      · exact Or.inl h'
      · exact Or.inr ⟨i, List.mem_cons_of_mem _ hi, hn⟩
    · simp only [hip] at h
      rcases hget : acc.1[p]? with _ | cur
      · simp only [hget] at h
        rcases ih acc h with h' | ⟨i, hi, hn⟩
        · exact Or.inl h'
        · exact Or.inr ⟨i, List.mem_cons_of_mem _ hi, hn⟩
      · simp only [hget] at h
        rcases ih _ h with h' | ⟨i, hi, hn⟩
        · simp only [Bool.or_eq_true] at h'
          rcases h' with h' | h'
          · exact Or.inl h'
          · exact Or.inr ⟨id, List.mem_cons_self _ _, mergeScan_matched h'⟩
        · exact Or.inr ⟨i, List.mem_cons_of_mem _ hi, hn⟩

/-! ### C2: when the `updated` stamp is applied in the edit protocol -/

/-- C2 counterexample: the Collect step of the current `editCmd` writes
each selected issue into the scratch buffer exactly as stored — with its
old `updated` value — so no choice of stamp makes every scratch issue
carry a fresh stamp, refuting the claim that stamping happens before the
write.  (The older revision of `editCmd` did stamp before writing; the
current code stamps during Merge instead.) -/
theorem C2_cex_scratch_not_stamped :
    collectScratch [Node.branch "i1" [Node.leaf .plain "updated" "old"]] ["i1"] =
      [Node.branch "i1" [Node.leaf .plain "updated" "old"]] ∧
    (Get (some (Node.branch "i1" [Node.leaf .plain "updated" "old"])) "updated").1 = "old" ∧
    ¬(∀ (issues : List Node) (ids : List String) (stamp : String),
        ∀ n ∈ collectScratch issues ids, (Get (some n) "updated").1 = stamp) := by
  refine ⟨rfl, rfl, ?_⟩
  intro h
  have hmem : Node.branch "i1" [Node.leaf .plain "updated" "old"] ∈
      collectScratch [Node.branch "i1" [Node.leaf .plain "updated" "old"]] ["i1"] := by
    have hcs : collectScratch [Node.branch "i1" [Node.leaf .plain "updated" "old"]] ["i1"] =
        [Node.branch "i1" [Node.leaf .plain "updated" "old"]] := rfl
    rw [hcs]
    exact List.mem_singleton.mpr rfl
  have ha := h _ _ "a" _ hmem
  have hb := h _ _ "b" _ hmem
  rw [ha] at hb
  exact absurd hb (by decide)

/-- C2 (amended): the Collect step writes each selected issue into the
scratch buffer verbatim — every scratch node is exactly a stored issue
resolved from the selection, unmodified — and the fresh `updated` stamp is
instead applied during the Merge step: every merged issue carries the
stamp in its `updated` field. -/
theorem C2_collect_verbatim_merge_stamps :
    (∀ (issues : List Node) (ids : List String) (n : Node),
      n ∈ collectScratch issues ids → ∃ id ∈ ids, Issue issues id = some n) ∧
    (∀ (eds : List Node) (id stamp : String) (cur : Node),
      (mergeScan eds id stamp cur).2 = true →
      Get (some (mergeScan eds id stamp cur).1) "updated" = (stamp, true)) := by
  constructor
  · intro issues ids n hn
    rw [collectScratch] at hn
    obtain ⟨id, hid, he⟩ := List.mem_filterMap.mp hn
    exact ⟨id, hid, he⟩
  · intro eds id stamp cur h
    exact mergeScan_stamped h

/-- C2 witness. -/
theorem C2_collect_verbatim_witness :
    (∃ id ∈ (["i1"] : List String),
      Issue [Node.branch "i1" [Node.leaf .plain "updated" "old"]] id =
        some (Node.branch "i1" [Node.leaf .plain "updated" "old"])) ∧
    Get (some (mergeScan [Node.branch "i1" [Node.leaf .plain "updated" "new"]] "i1" "ST"
        (Node.branch "i1" [Node.leaf .plain "updated" "old"])).1) "updated" = ("ST", true) :=
  ⟨C2_collect_verbatim_merge_stamps.1 [Node.branch "i1" [Node.leaf .plain "updated" "old"]]
      ["i1"] (Node.branch "i1" [Node.leaf .plain "updated" "old"])
      (by
        have hcs : collectScratch [Node.branch "i1" [Node.leaf .plain "updated" "old"]] ["i1"] =
            [Node.branch "i1" [Node.leaf .plain "updated" "old"]] := rfl
        rw [hcs]
        exact List.mem_singleton.mpr rfl),
   C2_collect_verbatim_merge_stamps.2 [Node.branch "i1" [Node.leaf .plain "updated" "new"]]
      "i1" "ST" (Node.branch "i1" [Node.leaf .plain "updated" "old"]) (by rfl)⟩

/-! ### C8: the edit protocol is all-or-nothing -/

/-- C8 (confirmed): the edit protocol aborts with the no-change outcome
whenever the scratch file's modification time is unchanged, without
touching the store; it fails with the no-update outcome when no selected
identifier prefix-matches any top-level branch of the reparsed buffer; and
an updated store is produced only when at least one selected identifier
matched a branch and was merged.  Every outcome except `updated` is a
`log.Fatalln` in the Go code, so `Store()` runs only after a merge. -/
theorem C8_editCmd_all_or_nothing :
    (∀ (issues : List Node) (ids : List String) (parsed : Option (List Node)) (stamp : String),
      editCmd issues ids false parsed stamp = .noChange) ∧
    (∀ (issues eds : List Node) (ids : List String) (stamp : String),
      (∀ id ∈ ids, ∀ n ∈ eds, n.isBranch = true → isPref id.data n.key.data = false) →
      editCmd issues ids true (some eds) stamp = .noUpdate) ∧
    (∀ (issues : List Node) (ids : List String) (parsed : Option (List Node)) (stamp : String)
      (l' : List Node), editCmd issues ids true parsed stamp = .updated l' →
      ∃ eds, parsed = some eds ∧
        ∃ id ∈ ids, ∃ n ∈ eds, n.isBranch = true ∧ isPref id.data n.key.data = true) := by
  refine ⟨fun _ _ _ _ => rfl, ?_, ?_⟩
  · intro issues eds ids stamp h
    have hd : (mergeAll issues ids eds stamp).2 = false := by
      rw [mergeAll]
      have := @mergeAll_no_match issues eds stamp ids (issues, false) h
      simpa using this
    show (if (mergeAll issues ids eds stamp).2 = true then
        EditResult.updated (mergeAll issues ids eds stamp).1 else .noUpdate) = .noUpdate
    rw [hd, if_neg (by simp)]
  · intro issues ids parsed stamp l' h
    cases parsed with
    | none => exact EditResult.noConfusion (show EditResult.parseFail = .updated l' from h)
    | some eds =>
      refine ⟨eds, rfl, ?_⟩
      replace h : (if (mergeAll issues ids eds stamp).2 = true then
          EditResult.updated (mergeAll issues ids eds stamp).1 else .noUpdate) = .updated l' := h
      rcases hd : (mergeAll issues ids eds stamp).2 with _ | _
      · rw [hd, if_neg (by simp)] at h
        exact EditResult.noConfusion h
      · rw [mergeAll] at hd
        rcases mergeAll_matched ids (issues, false) hd with h' | h'
        · cases h'
        · exact h'

/-- C8 witness. -/
theorem C8_editCmd_witness :
    editCmd [Node.branch "i1" [Node.leaf .plain "updated" "old"]] ["i1"] false
      (some [Node.branch "i1" [Node.leaf .plain "updated" "new"]]) "ST" = .noChange ∧
    editCmd [Node.branch "i1" [Node.leaf .plain "updated" "old"]] ["i1"] true
      (some [Node.branch "zz" [Node.leaf .plain "updated" "new"]]) "ST" = .noUpdate ∧
    (∃ eds, (some [Node.branch "i1" [Node.leaf .plain "updated" "new",
        Node.leaf .plain "summary" "ed"]]) = some eds ∧
      ∃ id ∈ (["i1"] : List String), ∃ n ∈ eds, n.isBranch = true ∧
        isPref id.data n.key.data = true) :=
  ⟨C8_editCmd_all_or_nothing.1 [Node.branch "i1" [Node.leaf .plain "updated" "old"]] ["i1"]
      (some [Node.branch "i1" [Node.leaf .plain "updated" "new"]]) "ST",
   C8_editCmd_all_or_nothing.2.1 [Node.branch "i1" [Node.leaf .plain "updated" "old"]]
      [Node.branch "zz" [Node.leaf .plain "updated" "new"]] ["i1"] "ST"
      (by
        intro id hid n hn hb
        rw [List.mem_singleton.mp hid]
        rw [List.mem_singleton.mp hn]
        rfl),
   C8_editCmd_all_or_nothing.2.2 [Node.branch "i1" [Node.leaf .plain "updated" "old"]] ["i1"]
      (some [Node.branch "i1" [Node.leaf .plain "updated" "new",
        Node.leaf .plain "summary" "ed"]]) "ST"
      [Node.branch "i1" [Node.leaf .plain "updated" "ST", Node.leaf .plain "summary" "ed"]]
      (by rfl)⟩

/-! ### C6: stability of Sort -/

theorem insertionSort_filter_stable {α : Type} (r : α → α → Prop) [DecidableRel r]
    (p : α → Bool) (l : List α) (h : ∀ a b, p a = true → p b = true → r a b) :
    (List.insertionSort r l).filter p = l.filter p := by
  have hc : (l.filter p).Pairwise r :=
    List.pairwise_of_forall_mem_list fun a ha b hb =>
      h a b (List.of_mem_filter ha) (List.of_mem_filter hb)
  have hsub : List.Sublist (l.filter p) (List.insertionSort r l) :=
    List.sublist_insertionSort hc (List.filter_sublist l)
  have hperm : ((List.insertionSort r l).filter p).Perm (l.filter p) :=
    (List.perm_insertionSort r l).filter p
  have hkeep : (l.filter p).filter p = l.filter p :=
    List.filter_eq_self.mpr fun a ha => List.of_mem_filter ha
  have hsub2 : List.Sublist (l.filter p) ((List.insertionSort r l).filter p) := by
    have := List.Sublist.filter p hsub
    rwa [hkeep] at this
  exact (hsub2.eq_of_length hperm.length_eq.symm).symm

/-- C6 (confirmed): `Sort` is stable in both directions: for every store,
identifier list, key and value, the identifiers whose resolved sort-key
value equals that value appear in the output in exactly the order they had
in the input, for ascending and descending sorts alike. -/
theorem C6_sort_stable (issues : List Node) (ids : List String) (key : String)
    (doAscend : Bool) (v : String) :
    (sortIds issues ids key doAscend).filter (fun id => resolveVal issues key id == v) =
      ids.filter (fun id => resolveVal issues key id == v) := by
  rw [sortIds]
  rw [List.filter_map]
  have hmem : ∀ x ∈ List.insertionSort (fun a b => sortLe doAscend a b = true)
      (ids.map fun id => (id, resolveVal issues key id)), x.2 = resolveVal issues key x.1 := by
    intro x hx
    rw [List.mem_insertionSort] at hx
    obtain ⟨id, _, he⟩ := List.mem_map.mp hx
    rw [← he]
  have hcongr : List.filter ((fun id => resolveVal issues key id == v) ∘ Prod.fst)
      (List.insertionSort (fun a b => sortLe doAscend a b = true)
        (ids.map fun id => (id, resolveVal issues key id))) =
      List.filter (fun x => x.2 == v)
      (List.insertionSort (fun a b => sortLe doAscend a b = true)
        (ids.map fun id => (id, resolveVal issues key id))) := by
    apply List.filter_congr
    intro x hx
    simp only [Function.comp]
    rw [hmem x hx]
  rw [hcongr]
  have hstable := insertionSort_filter_stable (fun a b => sortLe doAscend a b = true)
    (fun x : String × String => x.2 == v) (ids.map fun id => (id, resolveVal issues key id))
    (by
      intro a b ha hb
      rw [beq_iff_eq] at ha hb
      cases doAscend with
      | true =>
        rw [sortLe, if_pos rfl, ha, hb]
        simp [strLt, lexLt_irrefl]
      | false =>
        rw [sortLe, if_neg (by simp), ha, hb]
        simp [strLt, lexLt_irrefl])
  rw [hstable, List.filter_map, List.map_map]
  exact List.map_id'' (fun _ => rfl) _

/-! ### C5: prefix lookup through the sorted index -/

theorem rawIds_eq_IssueIds : ∀ {issues : List Node},
    (∀ n ∈ issues, n.isBranch = true) → rawIds issues = IssueIds issues := by
  intro issues
  induction issues with
  | nil => intro _; rfl
  | cons n rest ih =>
    intro h
    cases n with
    | branch k ks =>
      simp only [rawIds, IssueIds, List.map_cons, List.filterMap_cons]
      exact congrArg (fun l => k :: l) (ih fun m hm => h m (List.mem_cons_of_mem _ hm))
    | leaf t k v =>
      have := h (.leaf t k v) (List.mem_cons_self _ _)
      cases this

theorem mapPos_some_spec : ∀ {issues : List Node} {k : String} {p : Nat},
    mapPos issues k = some p →
    ∃ n, issues[p]? = some n ∧ n.isBranch = true ∧ n.key = k := by
  intro issues
  induction issues with
  | nil => intro k p h; cases h
  | cons n rest ih =>
    intro k p h
    rcases hm : mapPos rest k with _ | p'
    · simp only [mapPos, hm] at h
      cases n with
      | branch k' ks =>
        replace h : (if (k' == k) = true then some 0 else none) = some p := h
        by_cases hk : (k' == k) = true
        · rw [if_pos hk] at h
          injection h with h0
          subst h0
          exact ⟨.branch k' ks, by simp, rfl, by simpa [Node.key] using hk⟩
        · rw [if_neg hk] at h
          cases h
      | leaf t k' v =>
        replace h : (none : Option Nat) = some p := h
        cases h
    · simp only [mapPos, hm] at h
      injection h with h0
      subst h0
      obtain ⟨m, hget, hb, hkey⟩ := ih hm
      exact ⟨m, by simpa using hget, hb, hkey⟩

theorem mapPos_none_spec : ∀ {issues : List Node} {k : String},
    mapPos issues k = none → k ∉ IssueIds issues := by
  intro issues
  induction issues with
  | nil => intro k _ h; cases h
  | cons n rest ih =>
    intro k h hmem
    rcases hm : mapPos rest k with _ | p'
    · simp only [mapPos, hm] at h
      cases n with
      | branch k' ks =>
        replace h : (if (k' == k) = true then some 0 else none) = none := h
        by_cases hk : (k' == k) = true
        · rw [if_pos hk] at h
          cases h
        · simp only [IssueIds, List.filterMap_cons, List.mem_cons] at hmem
          rcases hmem with he | hmem'
          · exact hk (by simp [he])
          · exact ih hm hmem'
      | leaf t k' v =>
        simp only [IssueIds, List.filterMap_cons] at hmem
        exact ih hm hmem
    · simp only [mapPos, hm] at h
      cases h

theorem mem_sortStrings_IssueIds {issues : List Node} {s : String}
    (hAll : ∀ n ∈ issues, n.isBranch = true) :
    s ∈ sortStrings (rawIds issues) ↔ s ∈ IssueIds issues := by
  rw [(sortStrings_perm (rawIds issues)).mem_iff, rawIds_eq_IssueIds hAll]

/-- C5 (confirmed): `Issue` resolves an id-or-prefix to the branch whose
key is the lexicographically smallest identifier having the argument as a
prefix, and to nothing when no identifier has it as a prefix; with several
candidates the first in sort order wins silently.  The store invariant
that all top-level children are issue branches is assumed. -/
theorem C5_issue_prefix_lookup (issues : List Node) (p : String)
    (hAll : ∀ n ∈ issues, n.isBranch = true) :
    ((∀ k ∈ IssueIds issues, isPref p.data k.data = false) → Issue issues p = none) ∧
    (∀ k0 ∈ IssueIds issues, isPref p.data k0.data = true →
      ∃ n, Issue issues p = some n ∧ n ∈ issues ∧ n.isBranch = true ∧
        isPref p.data n.key.data = true ∧
        ∀ k ∈ IssueIds issues, isPref p.data k.data = true → strLe n.key k = true) := by
  constructor
  · intro hno
    rw [Issue, issuePos]
    rcases hg : (sortStrings (rawIds issues))[(sortStrings (rawIds issues)).findIdx
        fun s => strLe p s]? with _ | s
    · simp only [hg, Option.bind_none]
      rfl
    · have hsmem : s ∈ sortStrings (rawIds issues) := by
        obtain ⟨hlt, he⟩ := List.getElem?_eq_some_iff.mp hg
        exact he ▸ List.getElem_mem _
      have : isPref p.data s.data = false :=
        hno s ((mem_sortStrings_IssueIds hAll).mp hsmem)
      simp only [hg, this, Bool.false_eq_true, if_false, Option.bind_eq_bind]
      rfl
  · intro k0 hk0 hpref
    have hk0ids : k0 ∈ sortStrings (rawIds issues) := (mem_sortStrings_IssueIds hAll).mpr hk0
    have hle0 : strLe p k0 = true := by
      rw [strLe, strLt, isPref_not_lt hpref]
      rfl
    have hidx : (sortStrings (rawIds issues)).findIdx (fun s => strLe p s) <
        (sortStrings (rawIds issues)).length :=
      List.findIdx_lt_length_of_exists ⟨k0, hk0ids, hle0⟩
    set ids := sortStrings (rawIds issues) with hids
    set idx := ids.findIdx (fun s => strLe p s) with hidxdef
    have hs : ids[idx]? = some ids[idx] := List.getElem?_eq_getElem hidx
    have hsle : strLe p ids[idx] = true := List.findIdx_getElem
    obtain ⟨j0, hj0lt, hj0⟩ := List.getElem_of_mem hk0ids
    have hj0ge : idx ≤ j0 := by
      by_contra hc
      push_neg at hc
      have := @List.not_of_lt_findIdx String (fun s => strLe p s) ids _ hc
      rw [hj0, hle0] at this
      cases this
    have hsorted := sortStrings_sorted (rawIds issues)
    have hrel : ∀ (i j : Nat) (hi : i < ids.length) (hj : j < ids.length), i < j →
        strLe ids[i] ids[j] = true := by
      have := List.pairwise_iff_getElem.mp hsorted
      exact fun i j hi hj hij => this i j hi hj hij
    have hprefS : isPref p.data (ids[idx]).data = true := by
      rcases Nat.eq_or_lt_of_le hj0ge with he | hlt
      · have h1 : ids[idx]? = ids[j0]? := by rw [he]
        rw [List.getElem?_eq_getElem hidx, List.getElem?_eq_getElem hj0lt] at h1
        injection h1 with h1'
        rw [h1', hj0]
        exact hpref
      · have hlek0 : strLe ids[idx] k0 = true := by
          rw [← hj0]
          exact hrel idx j0 hidx hj0lt hlt
        have h1 : lexLt (ids[idx]).data p.data = false := by
          have h' := hsle
          rw [strLe, strLt, Bool.not_eq_true'] at h'
          exact h'
        have h2 : lexLt k0.data (ids[idx]).data = false := by
          have h' := hlek0
          rw [strLe, strLt, Bool.not_eq_true'] at h'
          exact h'
        exact isPref_sandwich h1 h2 hpref
    have hsmem : ids[idx] ∈ IssueIds issues :=
      (mem_sortStrings_IssueIds hAll).mp (List.getElem_mem _)
    rcases hmp : mapPos issues ids[idx] with _ | pos
    · exact absurd hsmem (mapPos_none_spec hmp)
    · obtain ⟨n, hget, hb, hkey⟩ := mapPos_some_spec hmp
      refine ⟨n, ?_, ?_, hb, ?_, ?_⟩
      · show (match ids[idx]? with
          | some s => if isPref p.data s.data = true then mapPos issues s else none
          | none => none).bind (fun i => issues[i]?) = some n
        rw [hs]
        show (if isPref p.data (ids[idx]).data = true then mapPos issues ids[idx]
          else none).bind (fun i => issues[i]?) = some n
        rw [if_pos hprefS, hmp]
        simpa using hget
      · obtain ⟨hlt2, he2⟩ := List.getElem?_eq_some_iff.mp hget
        exact he2 ▸ List.getElem_mem _
      · rw [hkey]
        exact hprefS
      · intro k hk hpk
        rw [hkey]
        have hkids : k ∈ ids := (mem_sortStrings_IssueIds hAll).mpr hk
        obtain ⟨jk, hjklt, hjk⟩ := List.getElem_of_mem hkids
        have hjkge : idx ≤ jk := by
          by_contra hc
          push_neg at hc
          have hni := @List.not_of_lt_findIdx String (fun s => strLe p s) ids _ hc
          have hlek : strLe p k = true := by
            rw [strLe, strLt, isPref_not_lt hpk]
            rfl
          rw [hjk, hlek] at hni
          cases hni
        rcases Nat.eq_or_lt_of_le hjkge with he | hlt
        · have h1 : ids[idx]? = ids[jk]? := by rw [he]
          rw [List.getElem?_eq_getElem hidx, List.getElem?_eq_getElem hjklt] at h1
          injection h1 with h1'
          rw [h1', hjk]
          simp [strLe, strLt, lexLt_irrefl]
        · rw [← hjk]
          exact hrel idx jk hidx hjklt hlt

/-- C5 witness. -/
theorem C5_issue_witness :
    Issue [Node.branch "bb" [], Node.branch "ab" [], Node.branch "ac" []] "zz" = none ∧
    (∃ n, Issue [Node.branch "bb" [], Node.branch "ab" [], Node.branch "ac" []] "a" = some n ∧
      n ∈ [Node.branch "bb" [], Node.branch "ab" [], Node.branch "ac" []] ∧ n.isBranch = true ∧
      isPref ("a" : String).data n.key.data = true ∧
      ∀ k ∈ IssueIds [Node.branch "bb" [], Node.branch "ab" [], Node.branch "ac" []],
        isPref ("a" : String).data k.data = true → strLe n.key k = true) :=
  ⟨(C5_issue_prefix_lookup [Node.branch "bb" [], Node.branch "ab" [], Node.branch "ac" []] "zz"
      (by
        intro n hn
        simp only [List.mem_cons, List.mem_singleton] at hn
        rcases hn with rfl | rfl | rfl | h
        · rfl
        · rfl
        · rfl
        · cases h)).1 (by decide),
   (C5_issue_prefix_lookup [Node.branch "bb" [], Node.branch "ab" [], Node.branch "ac" []] "a"
      (by
        intro n hn
        simp only [List.mem_cons, List.mem_singleton] at hn
        rcases hn with rfl | rfl | rfl | h
        · rfl
        · rfl
        · rfl
        · cases h)).2 "ab" (by decide) (by decide)⟩
